import Mathlib

/-!
A verification development for the learncoin reference implementation.

This file embeds, as executable Lean definitions, the parts of the learncoin
codebase that the verified properties talk about: the SHA-256 black box used by
`Sha256::digest` (the `sha2` crate), block headers and their hash
(`src/block.rs`), transactions and their ids (`src/transaction.rs`), the
Merkle tree (`src/merkle_tree.rs`), the proof-of-work engine
(`src/proof_of_work.rs`), the block index (`src/block_index.rs`), the block
tree (`src/block_tree.rs`), the orphan pool (`src/orphan_blocks.rs`), the flip
buffer (`src/flip_buffer.rs`), and the node's block-download bookkeeping
(`src/learncoin_node.rs`).

Rust `HashMap`s are embedded as association lists (first-match lookup; the code
never inserts a duplicate key without panicking, so the order of unrelated
entries is immaterial).  Machine integers (`u8`, `u32`, `u64`, `usize`) are
embedded as `Nat` with explicit `% 2^w` where overflow matters; operations that
panic in Rust (map `unwrap`, unsigned underflow, failed `assert!`) are embedded
as `Option`-returning functions that yield `none` at the panicking input.
-/

set_option autoImplicit false

/-- A byte string: a list of byte values (each in `0..255`). -/
abbrev Bytes := List Nat

/-- `2^32`: the modulus of 32-bit unsigned arithmetic. -/
def u32Mod : Nat := 4294967296

/-- `u32::MAX`. -/
def u32Max : Nat := 4294967295

/-- Big-endian encoding of `v` into `k` bytes (most significant byte first). -/
def toBytesBE : Nat → Nat → Bytes
  | 0, _ => []
  | k + 1, v => toBytesBE k (v / 256) ++ [v % 256]

/-! ## SHA-256 (the `sha2` crate behind `Sha256::digest` in `src/hash.rs`) -/

/-- Right rotation of a 32-bit word. -/
def rotr32 (n x : Nat) : Nat := ((x >>> n) ||| (x <<< (32 - n))) % u32Mod

/-- SHA-256 small sigma 0. -/
def ssig0 (x : Nat) : Nat := (rotr32 7 x) ^^^ (rotr32 18 x) ^^^ (x >>> 3)

/-- SHA-256 small sigma 1. -/
def ssig1 (x : Nat) : Nat := (rotr32 17 x) ^^^ (rotr32 19 x) ^^^ (x >>> 10)

/-- SHA-256 big sigma 0. -/
def bsig0 (x : Nat) : Nat := (rotr32 2 x) ^^^ (rotr32 13 x) ^^^ (rotr32 22 x)

/-- SHA-256 big sigma 1. -/
def bsig1 (x : Nat) : Nat := (rotr32 6 x) ^^^ (rotr32 11 x) ^^^ (rotr32 25 x)

/-- SHA-256 choice function. -/
def shaCh (x y z : Nat) : Nat := (x &&& y) ^^^ ((x ^^^ u32Max) &&& z)

/-- SHA-256 majority function. -/
def shaMaj (x y z : Nat) : Nat := (x &&& y) ^^^ (x &&& z) ^^^ (y &&& z)

/-- The 64 SHA-256 round constants. -/
def shaK : List Nat :=
  [1116352408, 1899447441, 3049323471, 3921009573, 961987163, 1508970993, 2453635748, 2870763221,
   3624381080, 310598401, 607225278, 1426881987, 1925078388, 2162078206, 2614888103, 3248222580,
   3835390401, 4022224774, 264347078, 604807628, 770255983, 1249150122, 1555081692, 1996064986,
   2554220882, 2821834349, 2952996808, 3210313671, 3336571891, 3584528711, 113926993, 338241895,
   666307205, 773529912, 1294757372, 1396182291, 1695183700, 1986661051, 2177026350, 2456956037,
   2730485921, 2820302411, 3259730800, 3345764771, 3516065817, 3600352804, 4094571909, 275423344,
   430227734, 506948616, 659060556, 883997877, 958139571, 1322822218, 1537002063, 1747873779,
   1955562222, 2024104815, 2227730452, 2361852424, 2428436474, 2756734187, 3204031479, 3329325298]

/-- SHA-256 padding: append `0x80`, zeros to 56 mod 64, then the bit length
big-endian in 8 bytes. -/
def padMessage (ms : Bytes) : Bytes :=
  ms ++ 128 :: (List.replicate ((119 - ms.length % 64) % 64) 0 ++ toBytesBE 8 (8 * ms.length))

/-- Group a byte string into big-endian 32-bit words (four bytes per word). -/
def wordsOfBytes : Bytes → List Nat
  | a :: b :: c :: d :: rest => (((a * 256 + b) * 256 + c) * 256 + d) :: wordsOfBytes rest
  | _ => []

/-- Split a byte string into chunks of 64 bytes.  The first argument is fuel
bounding the recursion depth; `chunks64` supplies enough for the whole input,
so the fuel never runs out. -/
def chunks64Aux : Nat → Bytes → List Bytes
  | 0, _ => []
  | _, [] => []
  | n + 1, l => l.take 64 :: chunks64Aux n (l.drop 64)

/-- Split a byte string into chunks of 64 bytes. -/
def chunks64 (l : Bytes) : List Bytes := chunks64Aux l.length l

/-- Extend the 16-word message schedule by `n` further words. -/
def extendWords (ws : List Nat) : Nat → List Nat
  | 0 => ws
  | n + 1 =>
    let i := ws.length
    let w := (ssig1 (ws.getD (i - 2) 0) + ws.getD (i - 7) 0 +
              ssig0 (ws.getD (i - 15) 0) + ws.getD (i - 16) 0) % u32Mod
    extendWords (ws ++ [w]) n

/-- The eight 32-bit words of SHA-256 working state. -/
structure Sha8 where
  a : Nat
  b : Nat
  c : Nat
  d : Nat
  e : Nat
  f : Nat
  g : Nat
  h : Nat
deriving DecidableEq

/-- One SHA-256 compression round, consuming one `(constant, scheduled word)`
pair. -/
def shaRound (s : Sha8) (kw : Nat × Nat) : Sha8 :=
  let t1 := (s.h + bsig1 s.e + shaCh s.e s.f s.g + kw.1 + kw.2) % u32Mod
  let t2 := (bsig0 s.a + shaMaj s.a s.b s.c) % u32Mod
  ⟨(t1 + t2) % u32Mod, s.a, s.b, s.c, (s.d + t1) % u32Mod, s.e, s.f, s.g⟩

/-- Compress one 64-byte chunk into the running hash state. -/
def processChunk (s : Sha8) (chunk : Bytes) : Sha8 :=
  let ws := extendWords (wordsOfBytes chunk) 48
  let r := (shaK.zip ws).foldl shaRound s
  ⟨(s.a + r.a) % u32Mod, (s.b + r.b) % u32Mod, (s.c + r.c) % u32Mod, (s.d + r.d) % u32Mod,
   (s.e + r.e) % u32Mod, (s.f + r.f) % u32Mod, (s.g + r.g) % u32Mod, (s.h + r.h) % u32Mod⟩

/-- SHA-256 of a byte string, as its 32-byte digest.  This is the
`Sha256::digest` black box of `src/hash.rs`. -/
def sha256 (ms : Bytes) : Bytes :=
  let s := (chunks64 (padMessage ms)).foldl processChunk
    ⟨1779033703, 3144134277, 1013904242, 2773480762,
     1359893119, 2600822924, 528734635, 1541459225⟩
  toBytesBE 4 s.a ++ toBytesBE 4 s.b ++ toBytesBE 4 s.c ++ toBytesBE 4 s.d ++
  toBytesBE 4 s.e ++ toBytesBE 4 s.f ++ toBytesBE 4 s.g ++ toBytesBE 4 s.h

/-! ## Hex and decimal formatting

The `Display` impls of `Sha256` (`src/hash.rs`, via `hex::encode`), of the
integer fields (`format!` uses decimal), and of `OutputIndex` (`i32`, signed
decimal).  All produce ASCII character codes. -/

/-- ASCII code of a lowercase hex digit. -/
def hexDigit (n : Nat) : Nat := if n < 10 then 48 + n else 87 + n

/-- The two lowercase hex character codes of one byte. -/
def byteHex (b : Nat) : Bytes := [hexDigit (b / 16), hexDigit (b % 16)]

/-- `hex::encode` of a byte string as ASCII codes: `Display` of `Sha256`. -/
def bytesHex (bs : Bytes) : Bytes := bs.foldr (fun b acc => byteHex b ++ acc) []

/-- ASCII decimal digits of a natural number (fuel-based; `natDec` supplies
fuel exceeding the number of digits, so it never runs out). -/
def natDecAux : Nat → Nat → Bytes
  | 0, _ => []
  | fuel + 1, n => if n < 10 then [48 + n] else natDecAux fuel (n / 10) ++ [48 + n % 10]

/-- ASCII decimal representation of a natural number (`Display` of `u32`). -/
def natDec (n : Nat) : Bytes := natDecAux (n + 1) n

/-- ASCII decimal representation of a signed integer (`Display` of `i32`). -/
def intDec (i : Int) : Bytes := if i < 0 then 45 :: natDec i.natAbs else natDec i.toNat

/-! ## Block headers (`src/block.rs`) -/

/-- `BlockHeader` of `src/block.rs`.  `previousBlockHash` and `merkleRoot` are
32-byte values; the numeric fields are `u32`. -/
structure BlockHeader where
  previousBlockHash : Bytes
  merkleRoot : Bytes
  timestamp : Nat
  difficultyTarget : Nat
  nonce : Nat
deriving DecidableEq

/-- `BlockHeader::hash`: the double SHA-256 of the `format!` string
`"{prev}{merkle}{timestamp}{difficulty}{nonce}"`, where the hashes display as
lowercase hex and the integers as decimal. -/
def BlockHeader.hash (h : BlockHeader) : Bytes :=
  let data := bytesHex h.previousBlockHash ++ bytesHex h.merkleRoot ++
    natDec h.timestamp ++ natDec h.difficultyTarget ++ natDec h.nonce
  sha256 (sha256 data)

/-! ## Transactions (`src/transaction.rs`) -/

/-- `TransactionInput`: the unlocking script carries no data and is omitted. -/
structure TransactionInput where
  utxoId : Bytes
  outputIndex : Int
deriving DecidableEq

/-- `TransactionInput::new_coinbase()`: zero utxo id, output index `-1`. -/
def coinbaseInput : TransactionInput := ⟨List.replicate 32 0, -1⟩

/-- `TransactionInput::is_coinbase`. -/
def TransactionInput.isCoinbase (i : TransactionInput) : Bool :=
  i.utxoId = List.replicate 32 0 ∧ i.outputIndex = -1

/-- `TransactionOutput`: the locking script carries no data and is omitted. -/
structure TransactionOutput where
  amount : Int
deriving DecidableEq

/-- `Display` of `TransactionInput`: `"{utxo_id}:{output_index}"`. -/
def txInputBytes (i : TransactionInput) : Bytes :=
  bytesHex i.utxoId ++ 58 :: intDec i.outputIndex

/-- `Display` of `TransactionOutput`: `"{amount}"`. -/
def txOutputBytes (o : TransactionOutput) : Bytes := intDec o.amount

/-- `Transaction::hash_transaction_data`: double SHA-256 of the concatenated
`Display` strings of the inputs followed by the outputs. -/
def hashTransactionData (inputs : List TransactionInput)
    (outputs : List TransactionOutput) : Bytes :=
  let data := (inputs.map txInputBytes).flatten ++ (outputs.map txOutputBytes).flatten
  sha256 (sha256 data)

/-- `Transaction`: the stored `id` is `hash_transaction_data(inputs, outputs)`
by construction in `Transaction::new`. -/
structure Transaction where
  id : Bytes
  inputs : List TransactionInput
  outputs : List TransactionOutput
deriving DecidableEq

/-- `Transaction::new` (with `validate_format`): fails when a coinbase input is
present but the transaction does not have exactly one input and one output. -/
def Transaction.make (inputs : List TransactionInput)
    (outputs : List TransactionOutput) : Option Transaction :=
  let tx : Transaction := ⟨hashTransactionData inputs outputs, inputs, outputs⟩
  if inputs.any TransactionInput.isCoinbase ∧ ¬(inputs.length = 1 ∧ outputs.length = 1)
  then none else some tx

/-! ## Merkle tree (`src/merkle_tree.rs`) -/

/-- One while-loop iteration body, pairing part: hash each adjacent pair
`(L, R)` into `H(L ‖ R)`.  The input has even length (the caller duplicates
the last element first). -/
def pairHashes : List Bytes → List Bytes
  | x :: y :: rest => sha256 (x ++ y) :: pairHashes rest
  | _ => []

/-- Duplicate the last element when the level has odd length. -/
def dupOdd (level : List Bytes) : List Bytes :=
  if level.length % 2 = 1 then level ++ level.drop (level.length - 1) else level

/-- The `while current_level_hashes.len() != 1` loop of `MerkleTree::merkle_root`
(fuel-based; each iteration halves the level, so `merkleRoot`'s fuel of the
initial length never runs out). -/
def merkleLoop : Nat → List Bytes → List Bytes
  | 0, level => level
  | fuel + 1, level =>
    if level.length = 1 then level else merkleLoop fuel (pairHashes (dupOdd level))

/-- `MerkleTree::merkle_root`: hash every leaf, then fold levels to a single
hash.  The source asserts the leaf list is non-empty; on `[]` (unreachable)
this returns `[]`. -/
def merkleRoot (leaves : List Bytes) : Bytes :=
  (merkleLoop leaves.length (leaves.map sha256)).headD []

/-- `MerkleTree::merkle_root_from_transactions`: the leaves are the raw bytes
of the transaction ids. -/
def merkleRootFromTransactions (txs : List Transaction) : Bytes :=
  merkleRoot (txs.map (fun t => t.id))

/-! ## Proof of work (`src/proof_of_work.rs`) -/

/-- `ProofOfWork::target_hash`: start from 32 bytes of `0xff`, zero the first
`difficulty / 8` bytes, and unless `difficulty` is a multiple of 8, set the
next byte to `(1 << (8 - difficulty % 8)) - 1`. -/
def targetHash (nLeadingZeroBits : Nat) : Bytes :=
  let numZeroBytes := nLeadingZeroBits / 8
  let base := (List.range 32).map fun i => if i < numZeroBytes then 0 else 255
  let nTrailingOneBits := 8 - nLeadingZeroBits % 8
  if nTrailingOneBits = 8 then base
  else base.set numZeroBytes ((1 <<< nTrailingOneBits) - 1)

/-- Rust's derived `Ord` on `[u8; 32]` restricted to `Less | Equal`:
lexicographic, unsigned, element-wise byte comparison. -/
def lexLe : Bytes → Bytes → Bool
  | [], _ => true
  | _ :: _, [] => false
  | a :: as, b :: bs => if a < b then true else if b < a then false else lexLe as bs

/-- `ProofOfWork::check_difficulty_criteria`: the header's hash is less than
or equal to the target hash. -/
def checkDifficultyCriteria (header : BlockHeader) (target : Bytes) : Bool :=
  lexLe header.hash target

/-- The `loop` of `ProofOfWork::compute_nonce_with_checkpoint`: try `sat` at
each nonce, break (returning `none`) after testing `u32::MAX` or `stopNonce`,
otherwise increment.  Fuel-based: the caller supplies `u32Max + 1 - start`
fuel, which the loop can never exhaust because it stops at `u32::MAX`. -/
def nonceLoopAux (sat : Nat → Bool) (stopNonce : Nat) : Nat → Nat → Option Nat
  | 0, _ => none
  | fuel + 1, nonce =>
    if sat nonce then some nonce
    else if nonce = u32Max ∨ nonce = stopNonce then none
    else nonceLoopAux sat stopNonce fuel (nonce + 1)

/-- `ProofOfWork::compute_nonce_with_checkpoint`. -/
def computeNonceWithCheckpoint (previousBlockHash merkleRootArg : Bytes)
    (timestamp difficulty startNonce stopNonce : Nat) : Option Nat :=
  let target := targetHash difficulty
  nonceLoopAux
    (fun nonce => checkDifficultyCriteria
      ⟨previousBlockHash, merkleRootArg, timestamp, difficulty, nonce⟩ target)
    stopNonce (u32Max + 1 - startNonce) startNonce

/-- `ProofOfWork::compute_nonce`: the full nonce range. -/
def computeNonce (previousBlockHash merkleRootArg : Bytes)
    (timestamp difficulty : Nat) : Option Nat :=
  computeNonceWithCheckpoint previousBlockHash merkleRootArg timestamp difficulty 0 u32Max

/-! ## Blocks (`src/block.rs`) -/

/-- `Block`: the stored `id` equals `header.hash()` by construction in
`Block::new`. -/
structure Block where
  id : Bytes
  header : BlockHeader
  transactions : List Transaction
deriving DecidableEq

/-- `Block::new`: derives the merkle root from the transactions and caches the
header hash as the id. -/
def Block.make (previousBlockHash : Bytes) (timestamp difficultyTarget nonce : Nat)
    (transactions : List Transaction) : Block :=
  let header : BlockHeader :=
    ⟨previousBlockHash, merkleRootFromTransactions transactions,
     timestamp, difficultyTarget, nonce⟩
  ⟨header.hash, header, transactions⟩

/-! ## Block index (`src/block_index.rs`)

The `HashMap<BlockHash, BlockIndexNode>` is embedded as an association list in
insertion order; keys are unique because `insert` panics (here: returns `none`)
when the hash is already present. -/

/-- `BlockIndexNode`. -/
structure BlockIndexNode where
  blockHeader : BlockHeader
  height : Nat
  chainWork : Nat
deriving DecidableEq

/-- `BlockIndex`. -/
structure BlockIndex where
  tree : List (Bytes × BlockIndexNode)
deriving DecidableEq

/-- `BlockIndex::new`: a tree holding only the genesis header at height 0 with
chain work 0. -/
def BlockIndex.new (genesisBlock : Block) : BlockIndex :=
  ⟨[(genesisBlock.header.hash, ⟨genesisBlock.header, 0, 0⟩)]⟩

/-- `BlockIndex::exists`. -/
def BlockIndex.existsHash (bi : BlockIndex) (blockHash : Bytes) : Bool :=
  (bi.tree.lookup blockHash).isSome

/-- `BlockIndex::get_block_index_node`. -/
def BlockIndex.getBlockIndexNode (bi : BlockIndex) (blockHash : Bytes) :
    Option BlockIndexNode :=
  bi.tree.lookup blockHash

/-- `BlockIndex::insert`.  Returns `none` at the panicking inputs: a missing
parent (`unwrap`), or an already-present hash (`assert!(previous.is_none())`).
Height is `parent.height + 1` and chain work is `parent.chain_work + 1`. -/
def BlockIndex.insert (bi : BlockIndex) (header : BlockHeader) : Option BlockIndex :=
  match bi.tree.lookup header.previousBlockHash with
  | none => none
  | some parent =>
    match bi.tree.lookup header.hash with
    | some _ => none
    | none =>
      some ⟨bi.tree ++ [(header.hash, ⟨header, parent.height + 1, parent.chainWork + 1⟩)]⟩

/-- `BlockIndex::parent`. -/
def BlockIndex.parentHash (bi : BlockIndex) (blockHash : Bytes) : Option Bytes :=
  (bi.tree.lookup blockHash).map fun node => node.blockHeader.previousBlockHash

/-- `BlockIndex::ancestor` (fuel-based; the recursion follows parent links, at
most one step per tree entry in a well-formed index).  `none` covers both the
source's `None` (hash not in the tree) and the `assert!(height <= current.height)`
panic. -/
def BlockIndex.ancestorAux (bi : BlockIndex) (targetHeight : Nat) :
    Nat → Bytes → Option BlockIndexNode
  | 0, _ => none
  | fuel + 1, blockHash =>
    match bi.tree.lookup blockHash with
    | none => none
    | some current =>
      if current.height < targetHeight then none
      else if current.height = targetHeight then some current
      else BlockIndex.ancestorAux bi targetHeight fuel current.blockHeader.previousBlockHash

/-- `BlockIndex::ancestor` with enough fuel for any well-formed tree. -/
def BlockIndex.ancestor (bi : BlockIndex) (blockHash : Bytes) (height : Nat) :
    Option BlockIndexNode :=
  BlockIndex.ancestorAux bi height (bi.tree.length + 1) blockHash

/-- First phase of `BlockIndex::find_fork`: walk the deeper node up, recording
its hashes, until both sides sit at the same height.  Fuel-based embedding of
the source's `loop`; `none` on exhausted fuel coincides with the source's
`None` for a missing hash, and concrete theorems supply ample fuel. -/
def findForkEqualize (bi : BlockIndex) :
    Nat → Bytes → Bytes → List Bytes → List Bytes →
    Option (Bytes × Bytes × List Bytes × List Bytes)
  | 0, _, _, _, _ => none
  | fuel + 1, hashA, hashB, pathA, pathB =>
    match bi.tree.lookup hashA, bi.tree.lookup hashB with
    | some a, some b =>
      if a.height < b.height then
        findForkEqualize bi fuel hashA b.blockHeader.previousBlockHash
          pathA (pathB ++ [hashB])
      else if b.height < a.height then
        findForkEqualize bi fuel a.blockHeader.previousBlockHash hashB
          (pathA ++ [hashA]) pathB
      else some (hashA, hashB, pathA, pathB)
    | _, _ => none

/-- Second phase of `BlockIndex::find_fork`: step both sides to their parents,
recording hashes, until the two pointers agree. -/
def findForkWalk (bi : BlockIndex) :
    Nat → Bytes → Bytes → List Bytes → List Bytes →
    Option (Bytes × List Bytes × List Bytes)
  | 0, _, _, _, _ => none
  | fuel + 1, hashA, hashB, pathA, pathB =>
    if hashA = hashB then some (hashA, pathA, pathB)
    else
      match bi.tree.lookup hashA, bi.tree.lookup hashB with
      | some a, some b =>
        findForkWalk bi fuel a.blockHeader.previousBlockHash
          b.blockHeader.previousBlockHash (pathA ++ [hashA]) (pathB ++ [hashB])
      | _, _ => none

/-- `BlockIndex::find_fork` (fuel-based). -/
def BlockIndex.findFork (bi : BlockIndex) (fuel : Nat) (hashA hashB : Bytes) :
    Option (Bytes × List Bytes × List Bytes) :=
  match findForkEqualize bi fuel hashA hashB [] [] with
  | none => none
  | some (ha, hb, pa, pb) => findForkWalk bi fuel ha hb pa pb

/-! ## Block tree (`src/block_tree.rs`)

Like the block index, the `HashMap<BlockHash, BlockTreeEntry>` is embedded as
an association list in insertion order. -/

/-- `BlockTreeEntry`. -/
structure BlockTreeEntry where
  block : Block
  height : Nat
deriving DecidableEq

/-- `ActiveBlock`: metadata of the last block of the active chain. -/
structure ActiveBlock where
  hash : Bytes
  totalWork : Nat
deriving DecidableEq

/-- `BlockTree`. -/
structure BlockTree where
  tree : List (Bytes × BlockTreeEntry)
  activeBlock : ActiveBlock
deriving DecidableEq

/-- `BlockTree::new`. -/
def BlockTree.new (genesisBlock : Block) : BlockTree :=
  ⟨[(genesisBlock.header.hash, ⟨genesisBlock, 0⟩)], ⟨genesisBlock.header.hash, 0⟩⟩

/-- `BlockTree::maybe_update_active_block`: switch the active block only when
the new block's total work strictly exceeds the current one. -/
def BlockTree.maybeUpdateActiveBlock (bt : BlockTree) (blockHash : Bytes)
    (newBlockTotalWork : Nat) : BlockTree :=
  if bt.activeBlock.totalWork < newBlockTotalWork then
    { bt with activeBlock := ⟨blockHash, newBlockTotalWork⟩ }
  else bt

/-- `BlockTree::insert`.  `none` at the panicking inputs: missing parent
(`unwrap`) or already-present hash (`assert!(previous.is_none())`).  The
source uses height as the proxy for total work. -/
def BlockTree.insert (bt : BlockTree) (block : Block) : Option BlockTree :=
  match bt.tree.lookup block.header.previousBlockHash with
  | none => none
  | some parent =>
    match bt.tree.lookup block.header.hash with
    | some _ => none
    | none =>
      let blockHeight := parent.height + 1
      some (BlockTree.maybeUpdateActiveBlock
        ⟨bt.tree ++ [(block.header.hash, ⟨block, blockHeight⟩)], bt.activeBlock⟩
        block.header.hash blockHeight)

/-- A sequence of `BlockTree::insert` calls, stopping at the first panic. -/
def BlockTree.runInserts (bt : BlockTree) : List Block → Option BlockTree
  | [] => some bt
  | b :: bs => (bt.insert b).bind fun bt2 => BlockTree.runInserts bt2 bs

/-! ## Orphan pool (`src/orphan_blocks.rs`) -/

/-- `OrphanBlocks`: orphaned blocks indexed by their parent hash. -/
structure OrphanBlocks where
  orphanedBlocks : List (Bytes × List Block)
deriving DecidableEq

/-- `OrphanBlocks::new`. -/
def OrphanBlocks.new : OrphanBlocks := ⟨[]⟩

/-- Append `b` to the vector stored under `key` (the `Entry::Occupied` arm of
`OrphanBlocks::insert`). -/
def obPush : List (Bytes × List Block) → Bytes → Block → List (Bytes × List Block)
  | [], _, _ => []
  | (k, v) :: rest, key, b =>
    if k = key then (k, v ++ [b]) :: rest else (k, v) :: obPush rest key b

/-- `OrphanBlocks::insert`: push onto the entry keyed by the block's parent
hash, creating the entry when absent. -/
def OrphanBlocks.insert (ob : OrphanBlocks) (block : Block) : OrphanBlocks :=
  let key := block.header.previousBlockHash
  match ob.orphanedBlocks.lookup key with
  | some _ => ⟨obPush ob.orphanedBlocks key block⟩
  | none => ⟨ob.orphanedBlocks ++ [(key, [block])]⟩

/-- `OrphanBlocks::exists`: whether some stored block under the parent key has
the same header hash. -/
def OrphanBlocks.existsBlock (ob : OrphanBlocks) (block : Block) : Bool :=
  match ob.orphanedBlocks.lookup block.header.previousBlockHash with
  | none => false
  | some existing => existing.any fun e => e.header.hash = block.header.hash

/-- Remove the entry with the given key (`HashMap::remove`). -/
def obErase : List (Bytes × List Block) → Bytes → List (Bytes × List Block)
  | [], _ => []
  | (k, v) :: rest, key => if k = key then rest else (k, v) :: obErase rest key

/-- `OrphanBlocks::remove`: return all orphans keyed by `parentHash` (empty
list when absent) together with the pool after removal. -/
def OrphanBlocks.remove (ob : OrphanBlocks) (parentHash : Bytes) :
    List Block × OrphanBlocks :=
  ((ob.orphanedBlocks.lookup parentHash).getD [], ⟨obErase ob.orphanedBlocks parentHash⟩)

/-! ## Flip buffer (`src/flip_buffer.rs`)

`Vec::new()` followed by `resize(capacity, 0)` yields a vector whose length
equals `capacity`; `Vec::capacity()` is embedded as the buffer length. -/

/-- `FlipBuffer`. -/
structure FlipBuffer where
  buffer : Bytes
  startIndex : Nat
  endIndex : Nat
deriving DecidableEq

/-- `FlipBuffer::new`. -/
def FlipBuffer.new (capacity : Nat) : FlipBuffer := ⟨List.replicate capacity 0, 0, 0⟩

/-- `Vec::capacity` of the underlying buffer. -/
def FlipBuffer.capacity (fb : FlipBuffer) : Nat := fb.buffer.length

/-- `FlipBuffer::data`: the slice `&buffer[start_index..end_index]`. -/
def FlipBuffer.data (fb : FlipBuffer) : Bytes :=
  (fb.buffer.drop fb.startIndex).take (fb.endIndex - fb.startIndex)

/-- `FlipBuffer::free_space_size`: `buffer.capacity() - data().len()`. -/
def FlipBuffer.freeSpaceSize (fb : FlipBuffer) : Nat :=
  fb.capacity - fb.data.length

/-- `FlipBuffer::free_space_slice_mut`: the slice `&mut buffer[end_index..]`. -/
def FlipBuffer.freeSpaceSlice (fb : FlipBuffer) : Bytes :=
  fb.buffer.drop fb.endIndex

/-- `FlipBuffer::flip`: `copy_within(start_index..end_index, 0)` overwrites the
first `end_index - start_index` bytes with the unconsumed data and leaves the
rest of the buffer unchanged; then `end_index -= start_index; start_index = 0`. -/
def FlipBuffer.flip (fb : FlipBuffer) : FlipBuffer :=
  ⟨(fb.buffer.drop fb.startIndex).take (fb.endIndex - fb.startIndex) ++
     fb.buffer.drop (fb.endIndex - fb.startIndex),
   0, fb.endIndex - fb.startIndex⟩

/-- `FlipBuffer::consume_data`: advance the read cursor; `none` when the
`assert!(start_index <= end_index)` fails. -/
def FlipBuffer.consumeData (fb : FlipBuffer) (numBytes : Nat) : Option FlipBuffer :=
  if fb.startIndex + numBytes ≤ fb.endIndex then
    some { fb with startIndex := fb.startIndex + numBytes }
  else none

/-- `FlipBuffer::consume_free_space`: advance the write cursor. -/
def FlipBuffer.consumeFreeSpace (fb : FlipBuffer) (numBytes : Nat) : FlipBuffer :=
  { fb with endIndex := fb.endIndex + numBytes }

/-! ## Node block-download bookkeeping (`src/learncoin_node.rs`)

The embedding covers the state that the block-download scheduler
(`maybe_send_get_block_data` / `find_next_blocks_to_download`), the `Block`
message handler (`on_block`), the request-timeout sweep
(`check_timeouts_get_block_data`) and `close_peer_connection` read and write.
`Instant` values are milliseconds as `Nat`; `Duration::gt` is strict `<` the
other way. -/

/-- `BLOCK_DOWNLOAD_WINDOW`. -/
def blockDownloadWindow : Nat := 1024

/-- `MAX_BLOCKS_IN_TRANSIT_PER_PEER`. -/
def maxBlocksInTransitPerPeer : Nat := 16

/-- `GET_BLOCK_DATA_RESPONSE_TIMEOUT` in milliseconds. -/
def getBlockDataResponseTimeout : Nat := 60000

/-- `PeerState` (`src/peer_state.rs`). -/
structure PeerState where
  expectVersionMessage : Bool
  expectVerackMessage : Bool
  headersMessageSentAt : Option Nat
  lastKnownHash : Bytes
  lastCommonBlock : Bytes
  numBlocksInTransit : Nat
deriving DecidableEq

/-- `PeerState::new`. -/
def PeerState.new (genesisHash : Bytes) : PeerState :=
  ⟨false, false, none, genesisHash, genesisHash, 0⟩

/-- `InFlightBlockRequest`. -/
structure InFlightBlockRequest where
  peerAddress : String
  sentAt : Nat
deriving DecidableEq

/-- The node state touched by the block-download path.  `blockStorage` is the
content-addressed map of `src/block_storage.rs`; `activeChain` is the block
vector of `src/active_chain.rs`. -/
structure NodeState where
  isInitialHeaderSyncComplete : Bool
  peerStates : List (String × PeerState)
  blockIndex : BlockIndex
  blockStorage : List (Bytes × Block)
  activeChain : List Block
  inFlightBlockRequests : List (Bytes × InFlightBlockRequest)
deriving DecidableEq

/-- Replace the value stored under `addr` (mutation through
`peer_states.get_mut`). -/
def updatePeer : List (String × PeerState) → String → PeerState →
    List (String × PeerState)
  | [], _, _ => []
  | (a, st) :: rest, addr, new =>
    if a = addr then (a, new) :: rest else (a, st) :: updatePeer rest addr new

/-- `HashMap::remove` on the peer-state map. -/
def erasePeer : List (String × PeerState) → String → List (String × PeerState)
  | [], _ => []
  | (a, st) :: rest, addr =>
    if a = addr then rest else (a, st) :: erasePeer rest addr

/-- `HashMap::remove` on the in-flight request map. -/
def eraseInFlight : List (Bytes × InFlightBlockRequest) → Bytes →
    List (Bytes × InFlightBlockRequest)
  | [], _ => []
  | (k, v) :: rest, key =>
    if k = key then rest else (k, v) :: eraseInFlight rest key

/-- `HashMap::insert` on the block-storage map (`BlockStorage::insert`):
replace the stored block or append a new entry. -/
def storageInsert : List (Bytes × Block) → Block → List (Bytes × Block)
  | [], b => [(b.id, b)]
  | (k, v) :: rest, b =>
    if k = b.id then (k, b) :: rest else (k, v) :: storageInsert rest b

/-- `BlockStorage::exists`. -/
def storageExists (storage : List (Bytes × Block)) (blockHash : Bytes) : Bool :=
  (storage.lookup blockHash).isSome

/-- `LearnCoinNode::on_block`: decrement the sender's `num_blocks_in_transit`,
remove the in-flight entry for the block's id, and store the block.  `none` at
the panicking inputs: an untracked sender (`unwrap`) or a sender with
`num_blocks_in_transit == 0` (`usize` underflow). -/
def onBlock (s : NodeState) (peerAddress : String) (block : Block) : Option NodeState :=
  match s.peerStates.lookup peerAddress with
  | none => none
  | some ps =>
    match ps.numBlocksInTransit with
    | 0 => none
    | n + 1 =>
      some { s with
        peerStates := updatePeer s.peerStates peerAddress
          { ps with numBlocksInTransit := n },
        inFlightBlockRequests := eraseInFlight s.inFlightBlockRequests block.id,
        blockStorage := storageInsert s.blockStorage block }

/-- `LearnCoinNode::close_peer_connection`: drop the peer's connection and
remove its `PeerState`.  Nothing else is freed. -/
def closePeerConnection (s : NodeState) (peerAddress : String) : NodeState :=
  { s with peerStates := erasePeer s.peerStates peerAddress }

/-- `LearnCoinNode::check_timeouts_get_block_data`: collect the in-flight
requests whose response has timed out, then remove each and close the
connection to the peer it was sent to.  (The source takes a `peer_address`
argument it never reads; the sweep scans the whole map.) -/
def checkTimeoutsGetBlockData (s : NodeState) (currentTime : Nat) : NodeState :=
  let expired := s.inFlightBlockRequests.filter
    fun e => getBlockDataResponseTimeout < currentTime - e.2.sentAt
  expired.foldl
    (fun acc e =>
      closePeerConnection
        { acc with inFlightBlockRequests := eraseInFlight acc.inFlightBlockRequests e.1 }
        e.2.peerAddress)
    s

/-- The `for i in 0..(num_blocks_to_fetch - 1)` loop of
`find_next_blocks_to_download`: starting from the highest candidate, follow
parent links downward.  `none` at the panicking inputs:
`assert_ne!(last, last_common_block)` or a missing parent (`unwrap`). -/
def buildCandidates (bi : BlockIndex) (lastCommonBlock : Bytes) :
    Nat → List Bytes → Option (List Bytes)
  | 0, acc => some acc
  | k + 1, acc =>
    match acc.getLast? with
    | none => none
    | some last =>
      if last = lastCommonBlock then none
      else
        match bi.parentHash last with
        | none => none
        | some parent => buildCandidates bi lastCommonBlock k (acc ++ [parent])

/-- The `while` loop of `find_next_blocks_to_download` (fuel-based; each
iteration raises the walk height by at least one, so
`blockDownloadWindow + 1` fuel is never exhausted). -/
def findNextLoop (bi : BlockIndex) (storage : List (Bytes × Block))
    (inFlight : List (Bytes × InFlightBlockRequest)) (lastKnownHash : Bytes)
    (maxHeight numBlocksToDownload : Nat) :
    Nat → BlockIndexNode → List Bytes → PeerState → Option (List Bytes × PeerState)
  | 0, _, _, _ => none
  | fuel + 1, indexWalkNode, blocksToDownload, ps =>
    if indexWalkNode.height < maxHeight ∧ blocksToDownload.length < numBlocksToDownload
    then
      let numRemainingSlots := numBlocksToDownload - blocksToDownload.length
      let numBlocksToFetch := min (maxHeight - indexWalkNode.height) numRemainingSlots
      match bi.ancestor lastKnownHash (indexWalkNode.height + numBlocksToFetch) with
      | none => none
      | some walkNode =>
        match buildCandidates bi ps.lastCommonBlock (numBlocksToFetch - 1)
          [walkNode.blockHeader.hash] with
        | none => none
        | some candidatesRev =>
          let candidates := candidatesRev.reverse
          let fresh := candidates.filter fun c =>
            ¬ storageExists storage c ∧ (inFlight.lookup c).isNone
          let downloadedPre := candidates.takeWhile fun c => storageExists storage c
          let ps2 :=
            match downloadedPre.getLast? with
            | none => ps
            | some c => { ps with lastCommonBlock := c }
          findNextLoop bi storage inFlight lastKnownHash maxHeight numBlocksToDownload
            fuel walkNode (blocksToDownload ++ fresh) ps2
    else some (blocksToDownload, ps)

/-- `LearnCoinNode::find_next_blocks_to_download`.  Returns the hashes to
request together with the peer state (whose `last_common_block` the loop may
advance); `none` at the panicking inputs (missing `last_common_block` or
`last_known_hash` nodes, `ancestor`/`parent` unwraps, `assert_ne!`). -/
def findNextBlocksToDownload (ps : PeerState) (bi : BlockIndex)
    (storage : List (Bytes × Block)) (inFlight : List (Bytes × InFlightBlockRequest))
    (numBlocksToDownload : Nat) : Option (List Bytes × PeerState) :=
  match bi.tree.lookup ps.lastCommonBlock, bi.tree.lookup ps.lastKnownHash with
  | some lastCommonNode, some lastKnownNode =>
    let windowEnd := lastCommonNode.height + blockDownloadWindow
    let maxHeight := min windowEnd lastKnownNode.height
    findNextLoop bi storage inFlight ps.lastKnownHash maxHeight numBlocksToDownload
      (blockDownloadWindow + 1) lastCommonNode [] ps
  | _, _ => none

/-- Record one `InFlightBlockRequest` per scheduled hash;
`assert!(previous.is_none())` becomes `none` on a duplicate key. -/
def insertAllInFlight (m : List (Bytes × InFlightBlockRequest)) :
    List Bytes → String → Nat → Option (List (Bytes × InFlightBlockRequest))
  | [], _, _ => some m
  | h :: rest, peer, t =>
    if (m.lookup h).isSome then none
    else insertAllInFlight (m ++ [(h, ⟨peer, t⟩)]) rest peer t

/-- `LearnCoinNode::maybe_send_get_block_data`: no-op before initial header
sync completes; otherwise schedule up to the peer's free request slots,
bumping `num_blocks_in_transit` and recording one in-flight entry per block.
`none` at the panicking inputs (untracked peer, the transit-bound `assert!`,
or any panic inside `find_next_blocks_to_download`). -/
def maybeSendGetBlockData (s : NodeState) (peerAddress : String)
    (currentTime : Nat) : Option NodeState :=
  if ¬ s.isInitialHeaderSyncComplete then some s
  else
    match s.peerStates.lookup peerAddress with
    | none => none
    | some ps =>
      if maxBlocksInTransitPerPeer < ps.numBlocksInTransit then none
      else
        let numFreeSlots := maxBlocksInTransitPerPeer - ps.numBlocksInTransit
        match findNextBlocksToDownload ps s.blockIndex s.blockStorage
          s.inFlightBlockRequests numFreeSlots with
        | none => none
        | some (blocksToDownload, ps2) =>
          if blocksToDownload.isEmpty then
            some { s with peerStates := updatePeer s.peerStates peerAddress ps2 }
          else
            match insertAllInFlight s.inFlightBlockRequests blocksToDownload
              peerAddress currentTime with
            | none => none
            | some inFlight2 =>
              some { s with
                peerStates := updatePeer s.peerStates peerAddress
                  { ps2 with numBlocksInTransit :=
                      ps2.numBlocksInTransit + blocksToDownload.length },
                inFlightBlockRequests := inFlight2 }

/-- Number of entries of an in-flight request map assigned to peer `q`. -/
def peerCount (m : List (Bytes × InFlightBlockRequest)) (q : String) : Nat :=
  (m.filter fun e => e.2.peerAddress = q).length

/-- Number of in-flight block requests assigned to peer `p`. -/
def countInFlightFor (s : NodeState) (p : String) : Nat :=
  peerCount s.inFlightBlockRequests p

/-- One step of the block-download protocol: a scheduling pass for some peer,
a solicited `Block` message (the block is currently in flight from its
sender), or a block-request timeout sweep. -/
inductive NodeStep : NodeState → NodeState → Prop where
  | schedule (s : NodeState) (peer : String) (t : Nat) (s' : NodeState) :
      maybeSendGetBlockData s peer t = some s' → NodeStep s s'
  | blockMsg (s : NodeState) (peer : String) (b : Block) (req : InFlightBlockRequest)
      (s' : NodeState) :
      s.inFlightBlockRequests.lookup b.id = some req → req.peerAddress = peer →
      onBlock s peer b = some s' → NodeStep s s'
  | timeout (s : NodeState) (t : Nat) :
      NodeStep s (checkTimeoutsGetBlockData s t)

/-- Well-formedness of the embedded hash maps: unique keys (always true of a
Rust `HashMap`). -/
def NodeWF (s : NodeState) : Prop :=
  (s.peerStates.map Prod.fst).Nodup ∧ (s.inFlightBlockRequests.map Prod.fst).Nodup

/-- The per-peer accounting invariant: every tracked peer's
`num_blocks_in_transit` equals the number of in-flight requests assigned to
it. -/
def TransitInv (s : NodeState) : Prop :=
  ∀ pr ∈ s.peerStates, pr.2.numBlocksInTransit = countInFlightFor s pr.1

/-! ## Concrete test fixtures

Concrete values used by witnesses and counterexamples: a coinbase transaction
built by `Transaction::new`, and blocks built by `Block::new` (difficulty 0 so
any nonce meets the target). -/

/-- The all-zero 32-byte hash (`Sha256::from_raw([0; 32])`). -/
def zeroHash : Bytes := List.replicate 32 0

/-- The id of `cbTx`: the double SHA-256 its serialisation hashes to.  Spelled
out as a literal so that proofs by evaluation need not recompute it; the
theorem `cbTx_genuine` certifies it against `Transaction::new`. -/
def cbTxId : Bytes :=
  [105, 188, 225, 206, 38, 246, 122, 168, 36, 71, 65, 0, 11, 58, 224, 13,
   250, 203, 31, 32, 22, 155, 176, 243, 182, 119, 221, 242, 154, 29, 160, 248]

/-- A coinbase transaction paying 50, as `Transaction::new` constructs it. -/
def cbTx : Transaction := ⟨cbTxId, [coinbaseInput], [⟨50⟩]⟩

/-- The merkle root of `[cbTx]` (a literal; certified by `testGenesis_genuine`). -/
def testMerkleRoot : Bytes :=
  [198, 217, 111, 134, 141, 44, 144, 104, 192, 134, 93, 56, 209, 72, 115, 160,
   182, 42, 61, 3, 175, 26, 221, 81, 122, 241, 180, 148, 165, 39, 186, 248]

/-- The id of `testGenesis` (a literal; certified by `testGenesis_genuine`). -/
def testGenesisId : Bytes :=
  [213, 193, 155, 60, 134, 223, 217, 30, 206, 60, 195, 133, 44, 181, 197, 160,
   76, 196, 243, 105, 7, 157, 228, 71, 140, 239, 208, 70, 187, 118, 195, 20]

/-- A concrete genesis-style block at difficulty 0, equal to
`Block::new(zeroHash, 1630569467, 0, 0, [cbTx])`. -/
def testGenesis : Block :=
  ⟨testGenesisId, ⟨zeroHash, testMerkleRoot, 1630569467, 0, 0⟩, [cbTx]⟩

/-- The id of `testBlock` (a literal; certified by `testBlock_genuine`). -/
def testBlockId : Bytes :=
  [180, 132, 52, 82, 40, 155, 6, 102, 92, 100, 210, 55, 192, 184, 51, 46,
   120, 178, 255, 164, 201, 188, 252, 113, 235, 171, 193, 232, 7, 209, 157, 176]

/-- A concrete child of `testGenesis`, equal to
`Block::new(testGenesis.id, 1630569468, 0, 0, [cbTx])`. -/
def testBlock : Block :=
  ⟨testBlockId, ⟨testGenesisId, testMerkleRoot, 1630569468, 0, 0⟩, [cbTx]⟩

/-- A concrete node state tracking one peer with the given
`num_blocks_in_transit`, with `testBlock` recorded as in flight from it. -/
def mkTestNode (count : Nat) : NodeState :=
  ⟨true,
   [("peer1", { PeerState.new testGenesis.id with numBlocksInTransit := count })],
   BlockIndex.new testGenesis,
   [(testGenesis.id, testGenesis)],
   [testGenesis],
   [(testBlock.id, ⟨"peer1", 0⟩)]⟩

/-- Distinct 32-byte hash constants for the `find_fork` tree: index 0 is the
genesis, 1 and 2 the chain `a1 → a2`, 3, 4 and 5 the chain `b1 → b2 → b3`. -/
def fkHash (k : Nat) : Bytes := List.replicate 31 0 ++ [k]

/-- A block index containing the two chains `genesis → a1 → a2` and
`genesis → b1 → b2 → b3`: each node records its parent hash, with heights and
chain work exactly as `BlockIndex::insert` derives them from the parent. -/
def forkIndex : BlockIndex :=
  ⟨[(fkHash 0, ⟨⟨zeroHash, zeroHash, 10, 0, 0⟩, 0, 0⟩),
    (fkHash 1, ⟨⟨fkHash 0, zeroHash, 11, 0, 0⟩, 1, 1⟩),
    (fkHash 2, ⟨⟨fkHash 1, zeroHash, 12, 0, 0⟩, 2, 2⟩),
    (fkHash 3, ⟨⟨fkHash 0, zeroHash, 21, 0, 0⟩, 1, 1⟩),
    (fkHash 4, ⟨⟨fkHash 3, zeroHash, 22, 0, 0⟩, 2, 2⟩),
    (fkHash 5, ⟨⟨fkHash 4, zeroHash, 23, 0, 0⟩, 3, 3⟩)]⟩

/-- A tiny genesis block for the block-tree witness (its header serialises to
three bytes, keeping evaluation cheap). -/
def wtG : Block := ⟨[9], ⟨[], [], 0, 0, 0⟩, []⟩

/-- First child of `wtG` (height 1, inserted first). -/
def wtC1 : Block := ⟨[1], ⟨wtG.header.hash, [], 1, 0, 0⟩, []⟩

/-- Second child of `wtG` (height 1, inserted second — a work tie). -/
def wtC2 : Block := ⟨[2], ⟨wtG.header.hash, [], 2, 0, 0⟩, []⟩

/-- The block tree after inserting `wtC1` then `wtC2`:  the tie leaves
`wtC1` active. -/
def c5FinalTree : BlockTree :=
  ⟨[(wtG.header.hash, ⟨wtG, 0⟩), (wtC1.header.hash, ⟨wtC1, 1⟩),
    (wtC2.header.hash, ⟨wtC2, 1⟩)],
   ⟨wtC1.header.hash, 1⟩⟩

/-- A concrete node state for the timeout counterexample: one tracked peer
with two in-flight requests, sent at times 0 and 50000. -/
def cxNode : NodeState :=
  ⟨true,
   [("peer1", { PeerState.new zeroHash with numBlocksInTransit := 2 })],
   ⟨[(zeroHash, ⟨⟨zeroHash, zeroHash, 0, 0, 0⟩, 0, 0⟩)]⟩,
   [],
   [testGenesis],
   [(fkHash 6, ⟨"peer1", 0⟩), (fkHash 7, ⟨"peer1", 50000⟩)]⟩

/-! # Theorems -/

/-- C10: with `start_index ≤ end_index ≤ capacity`, `free_space_size()` is
`capacity − (end_index − start_index)` while the writable tail
`free_space_slice_mut()` has length `capacity − end_index`; the two agree
exactly when `start_index = 0` (in particular right after `flip()`, which also
preserves the `data()` bytes), and `free_space_size()` strictly exceeds the
tail length whenever `start_index > 0`. -/
theorem flipBuffer_free_space_spec (fb : FlipBuffer)
    (h1 : fb.startIndex ≤ fb.endIndex) (h2 : fb.endIndex ≤ fb.capacity) :
    fb.freeSpaceSize = fb.capacity - (fb.endIndex - fb.startIndex) ∧
    fb.freeSpaceSlice.length = fb.capacity - fb.endIndex ∧
    (fb.freeSpaceSize = fb.freeSpaceSlice.length ↔ fb.startIndex = 0) ∧
    fb.flip.startIndex = 0 ∧ fb.flip.data = fb.data ∧
    (0 < fb.startIndex → fb.freeSpaceSlice.length < fb.freeSpaceSize) := by
  have hdata : fb.data.length = fb.endIndex - fb.startIndex := by
    simp only [FlipBuffer.data, List.length_take, List.length_drop]
    simp only [FlipBuffer.capacity] at h2
    omega
  have hflip : fb.flip.data = fb.data := by
    simp only [FlipBuffer.flip, FlipBuffer.data, Nat.sub_zero, List.drop_zero]
    exact List.take_left' hdata
  refine ⟨?_, ?_, ?_, rfl, hflip, ?_⟩
  · simp only [FlipBuffer.freeSpaceSize, hdata]
  · simp only [FlipBuffer.freeSpaceSlice, List.length_drop, FlipBuffer.capacity]
  · simp only [FlipBuffer.freeSpaceSize, FlipBuffer.freeSpaceSlice, hdata,
      List.length_drop, FlipBuffer.capacity] at h2 ⊢
    omega
  · intro h
    simp only [FlipBuffer.freeSpaceSize, FlipBuffer.freeSpaceSlice, hdata,
      List.length_drop, FlipBuffer.capacity] at h2 ⊢
    omega

/-- Witness for C10 at the concrete buffer `[1,2,3,4]`, `start = 1`, `end = 3`. -/
theorem flipBuffer_free_space_spec_witness :
    (FlipBuffer.mk [1, 2, 3, 4] 1 3).startIndex ≤ (FlipBuffer.mk [1, 2, 3, 4] 1 3).endIndex ∧
    (FlipBuffer.mk [1, 2, 3, 4] 1 3).endIndex ≤ (FlipBuffer.mk [1, 2, 3, 4] 1 3).capacity ∧
    ((FlipBuffer.mk [1, 2, 3, 4] 1 3).freeSpaceSize =
      (FlipBuffer.mk [1, 2, 3, 4] 1 3).capacity -
        ((FlipBuffer.mk [1, 2, 3, 4] 1 3).endIndex -
          (FlipBuffer.mk [1, 2, 3, 4] 1 3).startIndex) ∧
     (FlipBuffer.mk [1, 2, 3, 4] 1 3).freeSpaceSlice.length =
      (FlipBuffer.mk [1, 2, 3, 4] 1 3).capacity - (FlipBuffer.mk [1, 2, 3, 4] 1 3).endIndex ∧
     ((FlipBuffer.mk [1, 2, 3, 4] 1 3).freeSpaceSize =
        (FlipBuffer.mk [1, 2, 3, 4] 1 3).freeSpaceSlice.length ↔
        (FlipBuffer.mk [1, 2, 3, 4] 1 3).startIndex = 0) ∧
     (FlipBuffer.mk [1, 2, 3, 4] 1 3).flip.startIndex = 0 ∧
     (FlipBuffer.mk [1, 2, 3, 4] 1 3).flip.data = (FlipBuffer.mk [1, 2, 3, 4] 1 3).data ∧
     (0 < (FlipBuffer.mk [1, 2, 3, 4] 1 3).startIndex →
       (FlipBuffer.mk [1, 2, 3, 4] 1 3).freeSpaceSlice.length <
         (FlipBuffer.mk [1, 2, 3, 4] 1 3).freeSpaceSize)) :=
  ⟨by decide, by decide,
    flipBuffer_free_space_spec (FlipBuffer.mk [1, 2, 3, 4] 1 3) (by decide) (by decide)⟩

/-- C3: for every difficulty `d ≤ 256`, `target_hash(d)` is 32 bytes whose
first `d / 8` bytes are `0x00`, whose byte at index `d / 8` (when `d % 8 ≠ 0`)
has its top `d % 8` bits zero and the rest one, and whose remaining bytes are
`0xff`; in particular `target(0)`, `target(8)` and `target(256)` are as the
claim lists them. -/
theorem targetHash_spec (d : Nat) (hd : d ≤ 256) :
    (targetHash d).length = 32 ∧
    (∀ i, i < 32 →
      (targetHash d).getD i 0 =
        if i < d / 8 then 0
        else if i = d / 8 ∧ d % 8 ≠ 0 then 2 ^ (8 - d % 8) - 1
        else 255) ∧
    targetHash 0 = List.replicate 32 255 ∧
    targetHash 8 = 0 :: List.replicate 31 255 ∧
    targetHash 256 = List.replicate 32 0 := by
  have hEq : targetHash d =
      if 8 - d % 8 = 8 then (List.range 32).map (fun i => if i < d / 8 then 0 else 255)
      else ((List.range 32).map fun i => if i < d / 8 then 0 else 255).set (d / 8)
        ((1 <<< (8 - d % 8)) - 1) := rfl
  refine ⟨?_, ?_, by decide, by decide, by decide⟩
  · rw [hEq]
    by_cases h8 : 8 - d % 8 = 8 <;> simp [h8]
  · intro i hi
    by_cases h8 : d % 8 = 0
    · have h88 : 8 - d % 8 = 8 := by omega
      rw [hEq, if_pos h88]
      have hlen : ((List.range 32).map fun j => if j < d / 8 then 0 else 255).length = 32 := by
        simp
      rw [List.getD_eq_getElem _ _ (by omega)]
      simp only [List.getElem_map, List.getElem_range]
      have : ¬(i = d / 8 ∧ d % 8 ≠ 0) := by omega
      simp only [this, if_false]
    · have hne : ¬(8 - d % 8 = 8) := by omega
      have hdiv : d / 8 < 32 := by omega
      rw [hEq, if_neg hne]
      have hlen : (((List.range 32).map fun j => if j < d / 8 then 0 else 255).set (d / 8)
          ((1 <<< (8 - d % 8)) - 1)).length = 32 := by simp
      rw [List.getD_eq_getElem _ _ (by omega)]
      by_cases hieq : i = d / 8
      · subst hieq
        rw [List.getElem_set_self]
        have hno : ¬(d / 8 < d / 8) := by omega
        simp [hno, h8, Nat.shiftLeft_eq]
      · rw [List.getElem_set_of_ne (fun h => hieq h.symm)]
        simp only [List.getElem_map, List.getElem_range]
        have : ¬(i = d / 8 ∧ d % 8 ≠ 0) := fun h => hieq h.1
        simp only [this, if_false]

/-- Witness for C3 at the concrete difficulty 20. -/
theorem targetHash_spec_witness :
    20 ≤ 256 ∧
    ((targetHash 20).length = 32 ∧
     (∀ i, i < 32 →
       (targetHash 20).getD i 0 =
         if i < 20 / 8 then 0
         else if i = 20 / 8 ∧ 20 % 8 ≠ 0 then 2 ^ (8 - 20 % 8) - 1
         else 255) ∧
     targetHash 0 = List.replicate 32 255 ∧
     targetHash 8 = 0 :: List.replicate 31 255 ∧
     targetHash 256 = List.replicate 32 0) :=
  ⟨by decide, targetHash_spec 20 (by decide)⟩

set_option maxRecDepth 4000 in
/-- C7 (failing input): inserting the same block twice into an empty orphan
pool is not idempotent — contrary to the doc comment on
`OrphanBlocks::insert`, the duplicate is pushed, `remove` then returns the
block twice, while `exists` answers the same as after a single insert. -/
theorem orphanBlocks_insert_not_idempotent :
    (((OrphanBlocks.new.insert testBlock).insert testBlock).remove
        testBlock.header.previousBlockHash).1 = [testBlock, testBlock] ∧
    ((OrphanBlocks.new.insert testBlock).remove
        testBlock.header.previousBlockHash).1 = [testBlock] ∧
    [testBlock, testBlock] ≠ [testBlock] ∧
    ((OrphanBlocks.new.insert testBlock).insert testBlock).existsBlock testBlock =
      (OrphanBlocks.new.insert testBlock).existsBlock testBlock := by
  refine ⟨by decide, by decide, by decide, by decide⟩

/-- C9: `on_block` subtracts 1 from the sender's `num_blocks_in_transit` with
no guard, so it is total exactly under the precondition
`num_blocks_in_transit ≥ 1`: with the precondition it produces a successor
state, and a `Block` message from a tracked peer with
`num_blocks_in_transit = 0` hits the `usize` underflow panic (`none`) instead
of being handled as misbehaviour. -/
theorem onBlock_underflow_guard :
    (∀ (s : NodeState) (p : String) (b : Block) (ps : PeerState),
      s.peerStates.lookup p = some ps → 1 ≤ ps.numBlocksInTransit →
      ∃ s', onBlock s p b = some s') ∧
    (∀ (s : NodeState) (p : String) (b : Block) (ps : PeerState),
      s.peerStates.lookup p = some ps → ps.numBlocksInTransit = 0 →
      onBlock s p b = none) := by
  constructor
  · intro s p b ps hlk hge
    cases hn : ps.numBlocksInTransit with
    | zero => omega
    | succ n =>
      have heq : onBlock s p b = some
          { s with
            peerStates := updatePeer s.peerStates p { ps with numBlocksInTransit := n },
            inFlightBlockRequests := eraseInFlight s.inFlightBlockRequests b.id,
            blockStorage := storageInsert s.blockStorage b } := by
        simp [onBlock, hlk, hn]
      exact ⟨_, heq⟩
  · intro s p b ps hlk h0
    simp [onBlock, hlk, h0]

set_option maxRecDepth 4000 in
/-- Witness for C9: the concrete tracked peer with one block in transit
succeeds; the same peer with zero in transit hits the underflow. -/
theorem onBlock_underflow_guard_witness :
    ((mkTestNode 1).peerStates.lookup "peer1" =
        some { PeerState.new testGenesis.id with numBlocksInTransit := 1 } ∧
      1 ≤ ({ PeerState.new testGenesis.id with numBlocksInTransit := 1 } : PeerState).numBlocksInTransit ∧
      ∃ s', onBlock (mkTestNode 1) "peer1" testBlock = some s') ∧
    ((mkTestNode 0).peerStates.lookup "peer1" =
        some { PeerState.new testGenesis.id with numBlocksInTransit := 0 } ∧
      ({ PeerState.new testGenesis.id with numBlocksInTransit := 0 } : PeerState).numBlocksInTransit = 0 ∧
      onBlock (mkTestNode 0) "peer1" testBlock = none) :=
  ⟨⟨by decide, by decide,
      onBlock_underflow_guard.1 (mkTestNode 1) "peer1" testBlock
        { PeerState.new testGenesis.id with numBlocksInTransit := 1 } (by decide) (by decide)⟩,
   ⟨by decide, by decide,
      onBlock_underflow_guard.2 (mkTestNode 0) "peer1" testBlock
        { PeerState.new testGenesis.id with numBlocksInTransit := 0 } (by decide) (by decide)⟩⟩

/-- `find?` over a contiguous range returns `none` exactly when no element
satisfies the predicate, and `some n` exactly for the least satisfying `n`. -/
theorem find?_range'_spec (p : Nat → Bool) :
    ∀ k a,
      ((List.range' a k).find? p = none ↔ ∀ m, a ≤ m → m < a + k → p m = false) ∧
      (∀ n, (List.range' a k).find? p = some n ↔
        (a ≤ n ∧ n < a + k ∧ p n = true ∧ ∀ m, a ≤ m → m < n → p m = false)) := by
  intro k
  induction k with
  | zero =>
    intro a
    constructor
    · simp only [List.range'_zero, List.find?_nil, true_iff]
      intro m h1 h2
      omega
    · intro n
      simp only [List.range'_zero, List.find?_nil]
      constructor
      · intro h
        exact absurd h (by simp)
      · rintro ⟨h1, h2, -⟩
        omega
  | succ k ih =>
    intro a
    rw [List.range'_succ]
    by_cases hpa : p a
    · constructor
      · rw [List.find?_cons_of_pos _ hpa]
        constructor
        · intro h
          exact absurd h (by simp)
        · intro h
          have : p a = false := h a (by omega) (by omega)
          rw [hpa] at this
          exact absurd this (by simp)
      · intro n
        rw [List.find?_cons_of_pos _ hpa]
        constructor
        · intro h
          have hn : a = n := by
            have := Option.some.inj h
            exact this
          subst hn
          exact ⟨le_refl a, by omega, hpa, fun m h1 h2 => by omega⟩
        · rintro ⟨h1, h2, h3, h4⟩
          have hn : n = a := by
            by_contra hne
            have hlt : a < n := by omega
            have := h4 a (le_refl a) hlt
            rw [hpa] at this
            exact absurd this (by simp)
          rw [hn]
    · have hfa : p a = false := by
        cases h : p a with
        | false => rfl
        | true => exact absurd h hpa
      constructor
      · rw [List.find?_cons_of_neg _ hpa, (ih (a + 1)).1]
        constructor
        · intro h m h1 h2
          by_cases hma : m = a
          · rw [hma]; exact hfa
          · exact h m (by omega) (by omega)
        · intro h m h1 h2
          exact h m (by omega) (by omega)
      · intro n
        rw [List.find?_cons_of_neg _ hpa, (ih (a + 1)).2 n]
        constructor
        · rintro ⟨h1, h2, h3, h4⟩
          refine ⟨by omega, by omega, h3, fun m hm1 hm2 => ?_⟩
          by_cases hma : m = a
          · rw [hma]; exact hfa
          · exact h4 m (by omega) hm2
        · rintro ⟨h1, h2, h3, h4⟩
          have hna : n ≠ a := by
            intro he
            rw [he] at h3
            exact hpa h3
          exact ⟨by omega, by omega, h3, fun m hm1 hm2 => h4 m (by omega) hm2⟩

/-- The nonce loop equals first-match search over the inclusive range
`[nonce, stop]` whenever the fuel covers the range and `stop` is a `u32`. -/
theorem nonceLoopAux_eq_find (sat : Nat → Bool) (stop : Nat) (hstop : stop ≤ u32Max) :
    ∀ fuel nonce, nonce ≤ stop → stop + 1 - nonce ≤ fuel →
      nonceLoopAux sat stop fuel nonce = (List.range' nonce (stop + 1 - nonce)).find? sat := by
  intro fuel
  induction fuel with
  | zero =>
    intro nonce h1 h2
    omega
  | succ fuel ih =>
    intro nonce h1 h2
    have hk : stop + 1 - nonce = (stop - nonce) + 1 := by omega
    rw [hk, List.range'_succ]
    unfold nonceLoopAux
    by_cases hsat : sat nonce
    · rw [List.find?_cons_of_pos _ hsat, if_pos hsat]
    · rw [List.find?_cons_of_neg _ hsat, if_neg hsat]
      by_cases hstopc : nonce = stop
      · have : stop - nonce = 0 := by omega
        rw [this]
        simp only [List.range'_zero, List.find?_nil]
        rw [if_pos (Or.inr hstopc)]
      · have hmax : ¬(nonce = u32Max) := by omega
        rw [if_neg (by tauto)]
        have := ih (nonce + 1) (by omega) (by omega)
        rw [this]
        have : stop + 1 - (nonce + 1) = stop - nonce := by omega
        rw [this]

/-- C2: with `start ≤ stop` (and `stop` a `u32` value),
`compute_nonce_with_checkpoint` returns `some n` exactly when `n` is the
smallest nonce in `[start, stop]` whose trial header hash is ≤ the target
under unsigned lexicographic byte comparison, `none` exactly when no nonce in
the range qualifies, and — being a pure function of its arguments — two calls
with identical arguments return identical results. -/
theorem computeNonceWithCheckpoint_spec (prev merkle : Bytes) (ts d start stop : Nat)
    (h1 : start ≤ stop) (h2 : stop ≤ u32Max) :
    (∀ n, computeNonceWithCheckpoint prev merkle ts d start stop = some n ↔
      (start ≤ n ∧ n ≤ stop ∧
       checkDifficultyCriteria ⟨prev, merkle, ts, d, n⟩ (targetHash d) = true ∧
       ∀ m, start ≤ m → m < n →
         checkDifficultyCriteria ⟨prev, merkle, ts, d, m⟩ (targetHash d) = false)) ∧
    (computeNonceWithCheckpoint prev merkle ts d start stop = none ↔
      ∀ n, start ≤ n → n ≤ stop →
        checkDifficultyCriteria ⟨prev, merkle, ts, d, n⟩ (targetHash d) = false) ∧
    computeNonceWithCheckpoint prev merkle ts d start stop =
      computeNonceWithCheckpoint prev merkle ts d start stop := by
  have hloop : computeNonceWithCheckpoint prev merkle ts d start stop =
      (List.range' start (stop + 1 - start)).find?
        (fun nonce => checkDifficultyCriteria ⟨prev, merkle, ts, d, nonce⟩ (targetHash d)) := by
    unfold computeNonceWithCheckpoint
    exact nonceLoopAux_eq_find _ stop h2 _ start h1 (by omega)
  have hspec := find?_range'_spec
    (fun nonce => checkDifficultyCriteria ⟨prev, merkle, ts, d, nonce⟩ (targetHash d))
    (stop + 1 - start) start
  refine ⟨?_, ?_, rfl⟩
  · intro n
    rw [hloop, hspec.2 n]
    constructor
    · rintro ⟨ha, hb, hc, he⟩
      exact ⟨ha, by omega, hc, he⟩
    · rintro ⟨ha, hb, hc, he⟩
      exact ⟨ha, by omega, hc, he⟩
  · rw [hloop, hspec.1]
    constructor
    · intro h n hn1 hn2
      exact h n hn1 (by omega)
    · intro h n hn1 hn2
      exact h n hn1 (by omega)

/-- Witness for C2 at difficulty 0 (every hash meets the all-`0xff` target)
over the range `[3, 5]`. -/
theorem computeNonceWithCheckpoint_spec_witness :
    3 ≤ 5 ∧ 5 ≤ u32Max ∧
    ((∀ n, computeNonceWithCheckpoint zeroHash zeroHash 1 0 3 5 = some n ↔
      (3 ≤ n ∧ n ≤ 5 ∧
       checkDifficultyCriteria ⟨zeroHash, zeroHash, 1, 0, n⟩ (targetHash 0) = true ∧
       ∀ m, 3 ≤ m → m < n →
         checkDifficultyCriteria ⟨zeroHash, zeroHash, 1, 0, m⟩ (targetHash 0) = false)) ∧
    (computeNonceWithCheckpoint zeroHash zeroHash 1 0 3 5 = none ↔
      ∀ n, 3 ≤ n → n ≤ 5 →
        checkDifficultyCriteria ⟨zeroHash, zeroHash, 1, 0, n⟩ (targetHash 0) = false) ∧
    computeNonceWithCheckpoint zeroHash zeroHash 1 0 3 5 =
      computeNonceWithCheckpoint zeroHash zeroHash 1 0 3 5) :=
  ⟨by decide, by decide,
    computeNonceWithCheckpoint_spec zeroHash zeroHash 1 0 3 5 (by decide) (by decide)⟩

set_option maxRecDepth 8000 in
/-- C8 counterexample: for the concrete single-transaction list `[cbTx]` the
merkle root is not the double SHA-256 of the transaction id's bytes. -/
theorem merkleRoot_single_not_double_hash :
    merkleRootFromTransactions [cbTx] ≠ sha256 (sha256 cbTx.id) := by decide

/-- C8 (amended): the merkle root of a transaction list of length exactly one
is the single SHA-256 of the transaction id's bytes. -/
theorem merkleRoot_single (txs : List Transaction) (tx : Transaction)
    (h : txs = [tx]) : merkleRootFromTransactions txs = sha256 tx.id := by
  subst h
  rfl

set_option maxRecDepth 8000 in
/-- Witness for the amended C8 at the concrete coinbase transaction. -/
theorem merkleRoot_single_witness :
    [cbTx] = [cbTx] ∧ merkleRootFromTransactions [cbTx] = sha256 cbTx.id :=
  ⟨rfl, merkleRoot_single [cbTx] cbTx rfl⟩

/-- `BlockStorage::insert` stores the block under its id. -/
theorem lookup_storageInsert_self (st : List (Bytes × Block)) (b : Block) :
    (storageInsert st b).lookup b.id = some b := by
  induction st with
  | nil => simp [storageInsert, List.lookup]
  | cons kv rest ih =>
    obtain ⟨k, v⟩ := kv
    by_cases hk : k = b.id
    · simp [storageInsert, hk, List.lookup]
    · have hk2 : (b.id == k) = false := beq_eq_false_iff_ne.mpr (fun h => hk h.symm)
      simp [storageInsert, hk, List.lookup, ih, hk2]

/-- C1 (amended): `on_block` decrements the sender's `num_blocks_in_transit`,
removes the in-flight entry for the block's id, and stores the block in block
storage — and does nothing else: the block index and the active chain are
unchanged (there is no activation step and no orphan pool in the node). -/
theorem onBlock_effect (s : NodeState) (p : String) (b : Block) (ps : PeerState)
    (hlk : s.peerStates.lookup p = some ps) (hct : 1 ≤ ps.numBlocksInTransit) :
    onBlock s p b = some
      { s with
        peerStates := updatePeer s.peerStates p
          { ps with numBlocksInTransit := ps.numBlocksInTransit - 1 },
        inFlightBlockRequests := eraseInFlight s.inFlightBlockRequests b.id,
        blockStorage := storageInsert s.blockStorage b } ∧
    (∀ s', onBlock s p b = some s' →
      s'.activeChain = s.activeChain ∧ s'.blockIndex = s.blockIndex ∧
      s'.blockStorage.lookup b.id = some b) := by
  cases hn : ps.numBlocksInTransit with
  | zero => omega
  | succ n =>
    have heq : onBlock s p b = some
        { s with
          peerStates := updatePeer s.peerStates p { ps with numBlocksInTransit := n },
          inFlightBlockRequests := eraseInFlight s.inFlightBlockRequests b.id,
          blockStorage := storageInsert s.blockStorage b } := by
      simp [onBlock, hlk, hn]
    constructor
    · rw [heq]
      simp
    · intro s' hs'
      rw [heq] at hs'
      cases hs'
      exact ⟨rfl, rfl, lookup_storageInsert_self s.blockStorage b⟩

set_option maxRecDepth 4000 in
/-- C1 counterexample: in the concrete node whose block index contains the
parent of `testBlock`, handling `Block(testBlock)` leaves the active chain
exactly as it was (the genesis alone) — the block is not activated, contrary
to the claim. -/
theorem onBlock_no_activation :
    (mkTestNode 1).blockIndex.existsHash testBlock.header.previousBlockHash = true ∧
    (onBlock (mkTestNode 1) "peer1" testBlock).map (fun s' => s'.activeChain) =
      some [testGenesis] ∧
    (onBlock (mkTestNode 1) "peer1" testBlock).map
      (fun s' => s'.activeChain.any fun blk => blk.id = testBlock.id) = some false := by
  refine ⟨by decide, by decide, by decide⟩

set_option maxRecDepth 8000 in
/-- Witness for the amended C1 at the concrete tracked peer and block. -/
theorem onBlock_effect_witness :
    (mkTestNode 1).peerStates.lookup "peer1" =
        some { PeerState.new testGenesis.id with numBlocksInTransit := 1 } ∧
    1 ≤ ({ PeerState.new testGenesis.id with numBlocksInTransit := 1 } : PeerState).numBlocksInTransit ∧
    (onBlock (mkTestNode 1) "peer1" testBlock = some
      { mkTestNode 1 with
        peerStates := updatePeer (mkTestNode 1).peerStates "peer1"
          { ({ PeerState.new testGenesis.id with numBlocksInTransit := 1 } : PeerState) with
              numBlocksInTransit :=
                ({ PeerState.new testGenesis.id with numBlocksInTransit := 1 } : PeerState).numBlocksInTransit - 1 },
        inFlightBlockRequests :=
          eraseInFlight (mkTestNode 1).inFlightBlockRequests testBlock.id,
        blockStorage := storageInsert (mkTestNode 1).blockStorage testBlock } ∧
     (∀ s', onBlock (mkTestNode 1) "peer1" testBlock = some s' →
        s'.activeChain = (mkTestNode 1).activeChain ∧
        s'.blockIndex = (mkTestNode 1).blockIndex ∧
        s'.blockStorage.lookup testBlock.id = some testBlock)) := by
  refine ⟨by decide, by decide,
    onBlock_effect (mkTestNode 1) "peer1" testBlock
      { PeerState.new testGenesis.id with numBlocksInTransit := 1 } (by decide) (by decide)⟩

/-- C4 (amended): on the two-chain index, `find_fork(a2, b3)` returns the
genesis as the fork with the path `[a2, a1]` for the first argument and the
path `[b3, b2, b1]` for the second: each path lists the hashes from the given
node walking toward the fork (exclusive), in walk order starting at the given
node. -/
theorem findFork_two_chains :
    forkIndex.findFork 16 (fkHash 2) (fkHash 5) =
      some (fkHash 0, [fkHash 2, fkHash 1], [fkHash 5, fkHash 4, fkHash 3]) := by
  decide

/-- C4 counterexample: `find_fork(a2, b3)` does not return `[b1, b2, b3]` as
the second path — the path is produced in walk order from `b3` down, not from
the fork up. -/
theorem findFork_two_chains_claim_false :
    forkIndex.findFork 16 (fkHash 2) (fkHash 5) ≠
      some (fkHash 0, [fkHash 2, fkHash 1], [fkHash 3, fkHash 4, fkHash 5]) := by
  decide

/-- SHA-256 standard test vector: the digest of `"abc"`. -/
theorem sha256_abc_vector : sha256 [97, 98, 99] =
    [186, 120, 22, 191, 143, 1, 207, 234, 65, 65, 64, 222, 93, 174, 34, 35,
     176, 3, 97, 163, 150, 23, 122, 156, 180, 16, 255, 97, 242, 0, 21, 173] := by decide

set_option maxRecDepth 4000 in
/-- `cbTx` is exactly what `Transaction::new` builds from a coinbase input and
a 50-coin output: its literal id is the double SHA-256 of the serialised data. -/
theorem cbTx_genuine : Transaction.make [coinbaseInput] [⟨50⟩] = some cbTx := by decide

set_option maxRecDepth 4000 in
/-- `testGenesis` is exactly `Block::new(zeroHash, 1630569467, 0, 0, [cbTx])`. -/
theorem testGenesis_genuine : Block.make zeroHash 1630569467 0 0 [cbTx] = testGenesis := by
  decide

set_option maxRecDepth 4000 in
/-- `testBlock` is exactly `Block::new(testGenesis.id, 1630569468, 0, 0, [cbTx])`. -/
theorem testBlock_genuine : Block.make testGenesis.id 1630569468 0 0 [cbTx] = testBlock := by
  decide

/-- One `BlockTree::insert` preserves the active-block invariant: the active
work dominates every height, and the active entry is preceded (in insertion
order) only by entries of strictly smaller work. -/
theorem blockTree_insert_inv (t : BlockTree) (b : Block) (t' : BlockTree)
    (hins : t.insert b = some t')
    (h1 : ∀ e ∈ t.tree, e.2.height ≤ t.activeBlock.totalWork)
    (h2 : ∃ pre e post, t.tree = pre ++ (t.activeBlock.hash, e) :: post ∧
      e.height = t.activeBlock.totalWork ∧
      ∀ x ∈ pre, x.2.height < t.activeBlock.totalWork) :
    (∀ e ∈ t'.tree, e.2.height ≤ t'.activeBlock.totalWork) ∧
    (∃ pre e post, t'.tree = pre ++ (t'.activeBlock.hash, e) :: post ∧
      e.height = t'.activeBlock.totalWork ∧
      ∀ x ∈ pre, x.2.height < t'.activeBlock.totalWork) := by
  unfold BlockTree.insert at hins
  cases hpar : t.tree.lookup b.header.previousBlockHash with
  | none => rw [hpar] at hins; exact absurd hins (by simp)
  | some parent =>
    rw [hpar] at hins
    cases hcur : t.tree.lookup b.header.hash with
    | some old => rw [hcur] at hins; exact absurd hins (by simp)
    | none =>
      rw [hcur] at hins
      have ht' : t' = BlockTree.maybeUpdateActiveBlock
          ⟨t.tree ++ [(b.header.hash, ⟨b, parent.height + 1⟩)], t.activeBlock⟩
          b.header.hash (parent.height + 1) := by
        exact (Option.some.inj hins).symm
      unfold BlockTree.maybeUpdateActiveBlock at ht'
      by_cases hw : t.activeBlock.totalWork < parent.height + 1
      · rw [if_pos hw] at ht'
        subst ht'
        constructor
        · intro e he
          rcases List.mem_append.mp he with hmem | hmem
          · exact le_of_lt (lt_of_le_of_lt (h1 e hmem) hw)
          · rcases List.mem_singleton.mp hmem with rfl
            exact le_refl _
        · refine ⟨t.tree, ⟨b, parent.height + 1⟩, [], by simp, rfl, ?_⟩
          intro x hx
          exact lt_of_le_of_lt (h1 x hx) hw
      · rw [if_neg hw] at ht'
        subst ht'
        obtain ⟨pre, e, post, hsplit, hh, hpre⟩ := h2
        constructor
        · intro x hx
          rcases List.mem_append.mp hx with hmem | hmem
          · exact h1 x hmem
          · rcases List.mem_singleton.mp hmem with rfl
            show parent.height + 1 ≤ t.activeBlock.totalWork
            omega
        · refine ⟨pre, e, post ++ [(b.header.hash, ⟨b, parent.height + 1⟩)], ?_, hh, hpre⟩
          simp only [hsplit]
          simp

/-- Every panic-free run of inserts from a state satisfying the active-block
invariant ends in a state satisfying it. -/
theorem blockTree_runInserts_inv (bs : List Block) :
    ∀ (t0 t : BlockTree), BlockTree.runInserts t0 bs = some t →
    ((∀ e ∈ t0.tree, e.2.height ≤ t0.activeBlock.totalWork) ∧
     (∃ pre e post, t0.tree = pre ++ (t0.activeBlock.hash, e) :: post ∧
       e.height = t0.activeBlock.totalWork ∧
       ∀ x ∈ pre, x.2.height < t0.activeBlock.totalWork)) →
    (∀ e ∈ t.tree, e.2.height ≤ t.activeBlock.totalWork) ∧
    (∃ pre e post, t.tree = pre ++ (t.activeBlock.hash, e) :: post ∧
      e.height = t.activeBlock.totalWork ∧
      ∀ x ∈ pre, x.2.height < t.activeBlock.totalWork) := by
  induction bs with
  | nil =>
    intro t0 t hrun hinv
    have : t0 = t := by
      simpa [BlockTree.runInserts] using hrun
    rw [← this]
    exact hinv
  | cons b rest ih =>
    intro t0 t hrun hinv
    simp only [BlockTree.runInserts] at hrun
    cases hins : t0.insert b with
    | none => rw [hins] at hrun; exact absurd hrun (by simp)
    | some t1 =>
      rw [hins] at hrun
      exact ih t1 t hrun (blockTree_insert_inv t0 b t1 hins hinv.1 hinv.2)

/-- C5: after `BlockTree::new(genesis)` and any panic-free sequence of
`insert` calls, the active block's total work is at least the height-derived
work of every block in the tree, and the active block is the first-inserted
block among those of maximal work: every entry inserted before it has
strictly smaller work (so ties never displace the tip). -/
theorem blockTree_active_max_work (g : Block) (bs : List Block) (t : BlockTree)
    (h : BlockTree.runInserts (BlockTree.new g) bs = some t) :
    (∀ e ∈ t.tree, e.2.height ≤ t.activeBlock.totalWork) ∧
    (∃ pre e post, t.tree = pre ++ (t.activeBlock.hash, e) :: post ∧
      e.height = t.activeBlock.totalWork ∧
      ∀ x ∈ pre, x.2.height < t.activeBlock.totalWork) := by
  refine blockTree_runInserts_inv bs (BlockTree.new g) t h ⟨?_, ?_⟩
  · intro e he
    rcases List.mem_singleton.mp he with rfl
    exact le_refl _
  · exact ⟨[], ⟨g, 0⟩, [], rfl, rfl, by simp⟩

set_option maxRecDepth 4000 in
/-- Witness for C5: the concrete run `new(wtG); insert(wtC1); insert(wtC2)`
(a work tie between the two children) satisfies the conclusion with `wtC1`,
the first of the maximal-work blocks, active. -/
theorem blockTree_active_max_work_witness :
    BlockTree.runInserts (BlockTree.new wtG) [wtC1, wtC2] = some c5FinalTree ∧
    ((∀ e ∈ c5FinalTree.tree, e.2.height ≤ c5FinalTree.activeBlock.totalWork) ∧
     (∃ pre e post, c5FinalTree.tree =
        pre ++ (c5FinalTree.activeBlock.hash, e) :: post ∧
        e.height = c5FinalTree.activeBlock.totalWork ∧
        ∀ x ∈ pre, x.2.height < c5FinalTree.activeBlock.totalWork)) :=
  ⟨by decide, blockTree_active_max_work wtG [wtC1, wtC2] c5FinalTree (by decide)⟩

/-- A successful `List.lookup` exhibits a member of the association list. -/
theorem lookup_mem {α β : Type} [BEq α] [LawfulBEq α] (l : List (α × β)) (a : α) (v : β)
    (h : l.lookup a = some v) : (a, v) ∈ l := by
  induction l with
  | nil => simp [List.lookup] at h
  | cons kv rest ih =>
    obtain ⟨k, w⟩ := kv
    cases hak : a == k with
    | true =>
      have hkv : w = v := by
        simpa [List.lookup, hak] using h
      have : a = k := eq_of_beq hak
      subst this
      subst hkv
      exact List.mem_cons_self _ _
    | false =>
      have h' : rest.lookup a = some v := by
        simpa [List.lookup, hak] using h
      exact List.mem_cons_of_mem _ (ih h')

/-- In a key-unique association list, a key determines its value. -/
theorem nodup_keys_eq {α β : Type} (l : List (α × β)) (hnd : (l.map Prod.fst).Nodup)
    (k : α) (v w : β) (hv : (k, v) ∈ l) (hw : (k, w) ∈ l) : v = w := by
  induction l with
  | nil => simp at hv
  | cons kv rest ih =>
    simp only [List.map_cons, List.nodup_cons] at hnd
    rcases List.mem_cons.mp hv with rfl | hv'
    · rcases List.mem_cons.mp hw with heq | hw'
      · exact (congrArg Prod.snd heq).symm
      · exact absurd (List.mem_map_of_mem Prod.fst hw') (by simpa using hnd.1)
    · rcases List.mem_cons.mp hw with rfl | hw'
      · exact absurd (List.mem_map_of_mem Prod.fst hv') (by simpa using hnd.1)
      · exact ih hnd.2 hv' hw'

/-- A successful lookup splits the in-flight map around its (first) entry for
the key; `HashMap::remove` deletes exactly that entry. -/
theorem inFlight_lookup_split (m : List (Bytes × InFlightBlockRequest)) (k : Bytes)
    (v : InFlightBlockRequest) (h : m.lookup k = some v) :
    ∃ pre post, m = pre ++ (k, v) :: post ∧ (∀ e ∈ pre, e.1 ≠ k) ∧
      eraseInFlight m k = pre ++ post := by
  induction m with
  | nil => simp [List.lookup] at h
  | cons kv rest ih =>
    obtain ⟨a, b⟩ := kv
    by_cases hk : k = a
    · subst hk
      have hb : b = v := by simpa [List.lookup] using h
      subst hb
      exact ⟨[], rest, rfl, by simp, by simp [eraseInFlight]⟩
    · have hak : (k == a) = false := beq_eq_false_iff_ne.mpr hk
      have h' : rest.lookup k = some v := by
        simpa [List.lookup, hak] using h
      obtain ⟨pre, post, he, hpre, herase⟩ := ih h'
      refine ⟨(a, b) :: pre, post, by simp [he], ?_, ?_⟩
      · intro e he'
        rcases List.mem_cons.mp he' with rfl | hmem
        · exact fun hc => hk hc.symm
        · exact hpre e hmem
      · have hka : ¬ a = k := fun hc => hk hc.symm
        simp [eraseInFlight, hka, herase]

/-- Removing an absent key leaves the in-flight map unchanged. -/
theorem eraseInFlight_not_mem (m : List (Bytes × InFlightBlockRequest)) (k : Bytes)
    (h : m.lookup k = none) : eraseInFlight m k = m := by
  induction m with
  | nil => rfl
  | cons kv rest ih =>
    obtain ⟨a, b⟩ := kv
    by_cases hk : a = k
    · subst hk
      simp [List.lookup] at h
    · have hak : (k == a) = false := beq_eq_false_iff_ne.mpr (fun hc => hk hc.symm)
      have h' : rest.lookup k = none := by
        simpa [List.lookup, hak] using h
      simp [eraseInFlight, hk, ih h']

/-- `HashMap::remove` yields a sublist of the in-flight map. -/
theorem eraseInFlight_sublist (m : List (Bytes × InFlightBlockRequest)) (k : Bytes) :
    (eraseInFlight m k).Sublist m := by
  induction m with
  | nil => simp [eraseInFlight]
  | cons kv rest ih =>
    obtain ⟨a, b⟩ := kv
    by_cases hk : a = k
    · simp only [eraseInFlight, if_pos hk]
      exact List.sublist_cons_self _ _
    · simp only [eraseInFlight, if_neg hk]
      exact List.Sublist.cons₂ _ ih

/-- `peerCount` adds over appends. -/
theorem peerCount_append (m1 m2 : List (Bytes × InFlightBlockRequest)) (q : String) :
    peerCount (m1 ++ m2) q = peerCount m1 q + peerCount m2 q := by
  simp [peerCount, List.filter_append]

/-- `peerCount` of a cons. -/
theorem peerCount_cons (k : Bytes) (v : InFlightBlockRequest)
    (m : List (Bytes × InFlightBlockRequest)) (q : String) :
    peerCount ((k, v) :: m) q = (if v.peerAddress = q then 1 else 0) + peerCount m q := by
  by_cases hq : v.peerAddress = q
  · simp [peerCount, List.filter_cons, hq, Nat.add_comm]
  · simp [peerCount, List.filter_cons, hq]

/-- `peerCount` of a batch of fresh requests, all assigned to `p`. -/
theorem peerCount_batch (blocks : List Bytes) (p : String) (t : Nat) (q : String) :
    peerCount (blocks.map fun h => (h, ⟨p, t⟩)) q =
      if p = q then blocks.length else 0 := by
  induction blocks with
  | nil => simp [peerCount]
  | cons hd rest ih =>
    simp only [List.map_cons, peerCount_cons, ih]
    by_cases hq : p = q <;> simp [hq, Nat.add_comm]

/-- `get_mut`-style update does not change the key sequence. -/
theorem updatePeer_map_fst (l : List (String × PeerState)) (a : String) (v : PeerState) :
    (updatePeer l a v).map Prod.fst = l.map Prod.fst := by
  induction l with
  | nil => rfl
  | cons kv rest ih =>
    obtain ⟨k, w⟩ := kv
    by_cases hk : k = a <;> simp [updatePeer, hk, ih]

/-- Members of a key-unique peer map after an update: the updated pair, or an
untouched pair with a different key. -/
theorem mem_updatePeer (l : List (String × PeerState)) (a : String) (v : PeerState)
    (x : String × PeerState) (hnd : (l.map Prod.fst).Nodup)
    (hx : x ∈ updatePeer l a v) : x = (a, v) ∨ (x ∈ l ∧ x.1 ≠ a) := by
  induction l with
  | nil => simp [updatePeer] at hx
  | cons kv rest ih =>
    obtain ⟨k, w⟩ := kv
    simp only [List.map_cons, List.nodup_cons] at hnd
    by_cases hk : k = a
    · subst hk
      simp only [updatePeer, if_pos rfl] at hx
      rcases List.mem_cons.mp hx with rfl | hmem
      · exact Or.inl rfl
      · refine Or.inr ⟨List.mem_cons_of_mem _ hmem, ?_⟩
        intro hc
        exact hnd.1 (hc ▸ List.mem_map_of_mem Prod.fst hmem)
    · simp only [updatePeer, if_neg hk] at hx
      rcases List.mem_cons.mp hx with rfl | hmem
      · exact Or.inr ⟨List.mem_cons_self _ _, hk⟩
      · rcases ih hnd.2 hmem with heq | ⟨hmem', hne⟩
        · exact Or.inl heq
        · exact Or.inr ⟨List.mem_cons_of_mem _ hmem', hne⟩

/-- `HashMap::remove` on the peer map yields a sublist. -/
theorem erasePeer_sublist (l : List (String × PeerState)) (a : String) :
    (erasePeer l a).Sublist l := by
  induction l with
  | nil => simp [erasePeer]
  | cons kv rest ih =>
    obtain ⟨k, w⟩ := kv
    by_cases hk : k = a
    · simp only [erasePeer, if_pos hk]
      exact List.sublist_cons_self _ _
    · simp only [erasePeer, if_neg hk]
      exact List.Sublist.cons₂ _ ih

/-- In a key-unique peer map, every pair surviving a removal has a key other
than the removed one. -/
theorem mem_erasePeer (l : List (String × PeerState)) (a : String)
    (x : String × PeerState) (hnd : (l.map Prod.fst).Nodup)
    (hx : x ∈ erasePeer l a) : x ∈ l ∧ x.1 ≠ a := by
  induction l with
  | nil => simp [erasePeer] at hx
  | cons kv rest ih =>
    obtain ⟨k, w⟩ := kv
    simp only [List.map_cons, List.nodup_cons] at hnd
    by_cases hk : k = a
    · subst hk
      simp only [erasePeer, if_pos rfl] at hx
      refine ⟨List.mem_cons_of_mem _ hx, ?_⟩
      intro hc
      exact hnd.1 (hc ▸ List.mem_map_of_mem Prod.fst hx)
    · simp only [erasePeer, if_neg hk] at hx
      rcases List.mem_cons.mp hx with rfl | hmem
      · exact ⟨List.mem_cons_self _ _, hk⟩
      · rcases ih hnd.2 hmem with ⟨hmem', hne⟩
        exact ⟨List.mem_cons_of_mem _ hmem', hne⟩

/-- A failed lookup means the key is absent. -/
theorem lookup_none_not_key {β : Type} (m : List (Bytes × β)) (k : Bytes)
    (h : m.lookup k = none) : k ∉ m.map Prod.fst := by
  induction m with
  | nil => simp
  | cons kv rest ih =>
    obtain ⟨a, b⟩ := kv
    by_cases hk : k = a
    · subst hk
      simp [List.lookup] at h
    · have hak : (k == a) = false := beq_eq_false_iff_ne.mpr hk
      have h' : rest.lookup k = none := by
        simpa [List.lookup, hak] using h
      simp only [List.map_cons, List.mem_cons]
      rintro (rfl | hmem)
      · exact hk rfl
      · exact ih h' hmem

/-- A successful batch insert appends exactly one entry per scheduled hash,
all assigned to the requesting peer and timestamp. -/
theorem insertAllInFlight_spec (blocks : List Bytes) :
    ∀ (m : List (Bytes × InFlightBlockRequest)) (p : String) (t : Nat)
      (m2 : List (Bytes × InFlightBlockRequest)),
      insertAllInFlight m blocks p t = some m2 →
      m2 = m ++ blocks.map fun h => (h, ⟨p, t⟩) := by
  induction blocks with
  | nil =>
    intro m p t m2 h
    have : m = m2 := by simpa [insertAllInFlight] using h
    simp [← this]
  | cons hd rest ih =>
    intro m p t m2 h
    unfold insertAllInFlight at h
    by_cases hlk : (m.lookup hd).isSome
    · rw [if_pos hlk] at h
      exact absurd h (by simp)
    · rw [if_neg hlk] at h
      have := ih (m ++ [(hd, ⟨p, t⟩)]) p t m2 h
      simp [this]

/-- A successful batch insert preserves key uniqueness. -/
theorem insertAllInFlight_nodup (blocks : List Bytes) :
    ∀ (m : List (Bytes × InFlightBlockRequest)) (p : String) (t : Nat)
      (m2 : List (Bytes × InFlightBlockRequest)),
      (m.map Prod.fst).Nodup → insertAllInFlight m blocks p t = some m2 →
      (m2.map Prod.fst).Nodup := by
  induction blocks with
  | nil =>
    intro m p t m2 hnd h
    have : m = m2 := by simpa [insertAllInFlight] using h
    exact this ▸ hnd
  | cons hd rest ih =>
    intro m p t m2 hnd h
    unfold insertAllInFlight at h
    by_cases hlk : (m.lookup hd).isSome
    · rw [if_pos hlk] at h
      exact absurd h (by simp)
    · rw [if_neg hlk] at h
      have hnone : m.lookup hd = none := by
        cases hx : m.lookup hd with
        | none => rfl
        | some v => rw [hx] at hlk; simp at hlk
      have hmem := lookup_none_not_key m hd hnone
      refine ih (m ++ [(hd, ⟨p, t⟩)]) p t m2 ?_ h
      simp [List.nodup_append, hnd]
      intro a ha
      exact hmem (List.mem_map_of_mem Prod.fst ha)

/-- The download-selection loop only advances `last_common_block`: the
peer's `num_blocks_in_transit` is untouched. -/
theorem findNextLoop_count (bi : BlockIndex) (storage : List (Bytes × Block))
    (inFlight : List (Bytes × InFlightBlockRequest)) (lastKnownHash : Bytes)
    (maxHeight numBlocksToDownload : Nat) :
    ∀ (fuel : Nat) (walk : BlockIndexNode) (acc : List Bytes) (ps ps2 : PeerState)
      (blocks : List Bytes),
      findNextLoop bi storage inFlight lastKnownHash maxHeight numBlocksToDownload
        fuel walk acc ps = some (blocks, ps2) →
      ps2.numBlocksInTransit = ps.numBlocksInTransit := by
  intro fuel
  induction fuel with
  | zero =>
    intro walk acc ps ps2 blocks h
    exact absurd h (by simp [findNextLoop])
  | succ fuel ih =>
    intro walk acc ps ps2 blocks h
    unfold findNextLoop at h
    dsimp only at h
    split at h
    · split at h
      · exact absurd h (by simp)
      · split at h
        · exact absurd h (by simp)
        · split at h
          · have hc := ih _ _ _ _ _ h
            exact hc
          · have hc := ih _ _ _ _ _ h
            exact hc
    · have heq := congrArg Prod.snd (Option.some.inj h)
      simp only [Prod.snd] at heq
      rw [heq]

/-- `find_next_blocks_to_download` does not change the peer's
`num_blocks_in_transit`. -/
theorem findNextBlocksToDownload_count (ps : PeerState) (bi : BlockIndex)
    (storage : List (Bytes × Block)) (inFlight : List (Bytes × InFlightBlockRequest))
    (n : Nat) (blocks : List Bytes) (ps2 : PeerState)
    (h : findNextBlocksToDownload ps bi storage inFlight n = some (blocks, ps2)) :
    ps2.numBlocksInTransit = ps.numBlocksInTransit := by
  unfold findNextBlocksToDownload at h
  cases hc : bi.tree.lookup ps.lastCommonBlock with
  | none => rw [hc] at h; exact absurd h (by simp)
  | some lastCommonNode =>
    rw [hc] at h
    cases hk : bi.tree.lookup ps.lastKnownHash with
    | none => rw [hk] at h; exact absurd h (by simp)
    | some lastKnownNode =>
      rw [hk] at h
      exact findNextLoop_count bi storage inFlight ps.lastKnownHash _ _ _ _ _ _ _ _ h

/-- Updating one tracked peer with an unchanged transit count keeps the
accounting invariant (the in-flight map is untouched). -/
theorem transitInv_updatePeer (s : NodeState) (p : String) (ps ps2 : PeerState)
    (hwf1 : (s.peerStates.map Prod.fst).Nodup) (hinv : TransitInv s)
    (hlk : s.peerStates.lookup p = some ps)
    (hcnt : ps2.numBlocksInTransit = ps.numBlocksInTransit) :
    TransitInv { s with peerStates := updatePeer s.peerStates p ps2 } := by
  intro pr hpr
  rcases mem_updatePeer _ _ _ _ hwf1 hpr with rfl | ⟨hmem, hne⟩
  · have h1 := hinv (p, ps) (lookup_mem _ _ _ hlk)
    show ps2.numBlocksInTransit = peerCount s.inFlightBlockRequests p
    rw [hcnt]
    exact h1
  · exact hinv pr hmem

/-- A block-download scheduling pass preserves well-formedness and the
accounting invariant. -/
theorem maybeSend_preserves (s : NodeState) (p : String) (t : Nat) (s' : NodeState)
    (hwf : NodeWF s) (hinv : TransitInv s)
    (h : maybeSendGetBlockData s p t = some s') : NodeWF s' ∧ TransitInv s' := by
  unfold maybeSendGetBlockData at h
  split at h
  · cases Option.some.inj h
    exact ⟨hwf, hinv⟩
  · split at h
    · exact absurd h (by simp)
    · next ps hlk =>
      split at h
      · exact absurd h (by simp)
      · dsimp only at h
        split at h
        · exact absurd h (by simp)
        · next blocks ps2 hfind =>
          have hcnt : ps2.numBlocksInTransit = ps.numBlocksInTransit :=
            findNextBlocksToDownload_count _ _ _ _ _ _ _ hfind
          split at h
          · cases Option.some.inj h
            refine ⟨⟨?_, hwf.2⟩, ?_⟩
            · show ((updatePeer s.peerStates p ps2).map Prod.fst).Nodup
              rw [updatePeer_map_fst]
              exact hwf.1
            · exact transitInv_updatePeer s p ps ps2 hwf.1 hinv hlk hcnt
          · split at h
            · exact absurd h (by simp)
            · next m2 hins =>
              cases Option.some.inj h
              have hm2 := insertAllInFlight_spec blocks _ p t m2 hins
              have hq : ∀ q, peerCount m2 q =
                  peerCount s.inFlightBlockRequests q +
                    if p = q then blocks.length else 0 := by
                intro q
                rw [hm2, peerCount_append, peerCount_batch]
              refine ⟨⟨?_, insertAllInFlight_nodup blocks _ p t m2 hwf.2 hins⟩, ?_⟩
              · show ((updatePeer s.peerStates p _).map Prod.fst).Nodup
                rw [updatePeer_map_fst]
                exact hwf.1
              · intro pr hpr
                rcases mem_updatePeer _ _ _ _ hwf.1 hpr with rfl | ⟨hmem, hne⟩
                · have h1 := hinv (p, ps) (lookup_mem _ _ _ hlk)
                  simp only [countInFlightFor] at h1
                  have h2 := hq p
                  show ps2.numBlocksInTransit + blocks.length = peerCount m2 p
                  rw [if_pos rfl] at h2
                  omega
                · have h1 := hinv pr hmem
                  simp only [countInFlightFor] at h1
                  have h2 := hq pr.1
                  rw [if_neg (fun hc => hne hc.symm)] at h2
                  show pr.2.numBlocksInTransit = peerCount m2 pr.1
                  omega

/-- Handling a solicited `Block` message preserves well-formedness and the
accounting invariant: the removed in-flight entry belongs to the sender, whose
count drops by exactly one. -/
theorem onBlock_preserves (s : NodeState) (p : String) (b : Block)
    (req : InFlightBlockRequest) (s' : NodeState)
    (hwf : NodeWF s) (hinv : TransitInv s)
    (hlkIF : s.inFlightBlockRequests.lookup b.id = some req)
    (hreq : req.peerAddress = p)
    (h : onBlock s p b = some s') : NodeWF s' ∧ TransitInv s' := by
  unfold onBlock at h
  split at h
  · exact absurd h (by simp)
  · next ps hlk =>
    split at h
    · exact absurd h (by simp)
    · next n hn =>
      cases Option.some.inj h
      obtain ⟨pre, post, hsplit, hpreK, herase⟩ := inFlight_lookup_split _ _ _ hlkIF
      have hcountEq : ∀ q, peerCount s.inFlightBlockRequests q =
          peerCount (eraseInFlight s.inFlightBlockRequests b.id) q +
            if req.peerAddress = q then 1 else 0 := by
        intro q
        rw [herase, hsplit, peerCount_append, peerCount_cons, peerCount_append]
        by_cases hpq : req.peerAddress = q
        · simp [hpq]
          omega
        · simp [hpq]
      constructor
      · refine ⟨?_, hwf.2.sublist ((eraseInFlight_sublist _ _).map Prod.fst)⟩
        show ((updatePeer s.peerStates p _).map Prod.fst).Nodup
        rw [updatePeer_map_fst]
        exact hwf.1
      · intro pr hpr
        rcases mem_updatePeer _ _ _ _ hwf.1 hpr with rfl | ⟨hmem, hne⟩
        · have h1 := hinv (p, ps) (lookup_mem _ _ _ hlk)
          simp only [countInFlightFor] at h1
          have h2 := hcountEq p
          rw [hreq, if_pos rfl] at h2
          show n = peerCount (eraseInFlight s.inFlightBlockRequests b.id) p
          omega
        · have h1 := hinv pr hmem
          simp only [countInFlightFor] at h1
          have h2 := hcountEq pr.1
          rw [hreq, if_neg (fun hc => hne hc.symm)] at h2
          show pr.2.numBlocksInTransit =
            peerCount (eraseInFlight s.inFlightBlockRequests b.id) pr.1
          omega

/-- One iteration of the timeout sweep (remove one expired entry, close the
peer it was sent to) preserves well-formedness, the accounting invariant, and
containment of the in-flight map in the pre-sweep map. -/
theorem timeoutStep_preserves (s acc : NodeState) (k : Bytes) (r : InFlightBlockRequest)
    (hsnd : (s.inFlightBlockRequests.map Prod.fst).Nodup)
    (hmemS : (k, r) ∈ s.inFlightBlockRequests)
    (hsub : ∀ x ∈ acc.inFlightBlockRequests, x ∈ s.inFlightBlockRequests)
    (hwf : NodeWF acc) (hinv : TransitInv acc) :
    NodeWF (closePeerConnection
      { acc with inFlightBlockRequests := eraseInFlight acc.inFlightBlockRequests k }
      r.peerAddress) ∧
    TransitInv (closePeerConnection
      { acc with inFlightBlockRequests := eraseInFlight acc.inFlightBlockRequests k }
      r.peerAddress) ∧
    ∀ x ∈ (closePeerConnection
      { acc with inFlightBlockRequests := eraseInFlight acc.inFlightBlockRequests k }
      r.peerAddress).inFlightBlockRequests, x ∈ s.inFlightBlockRequests := by
  have hwfPeers : ((erasePeer acc.peerStates r.peerAddress).map Prod.fst).Nodup :=
    hwf.1.sublist ((erasePeer_sublist _ _).map Prod.fst)
  have hwfIF : ((eraseInFlight acc.inFlightBlockRequests k).map Prod.fst).Nodup :=
    hwf.2.sublist ((eraseInFlight_sublist _ _).map Prod.fst)
  have hsub' : ∀ x ∈ eraseInFlight acc.inFlightBlockRequests k,
      x ∈ s.inFlightBlockRequests :=
    fun x hx => hsub x ((eraseInFlight_sublist _ _).mem hx)
  cases hlk : acc.inFlightBlockRequests.lookup k with
  | none =>
    have herase := eraseInFlight_not_mem _ _ hlk
    refine ⟨⟨hwfPeers, hwfIF⟩, ?_, hsub'⟩
    intro pr hpr
    obtain ⟨hmem, -⟩ := mem_erasePeer _ _ _ hwf.1 hpr
    have h1 := hinv pr hmem
    simp only [countInFlightFor] at h1 ⊢
    show pr.2.numBlocksInTransit = peerCount (eraseInFlight acc.inFlightBlockRequests k) pr.1
    rw [herase]
    exact h1
  | some v =>
    have hvr : v = r :=
      nodup_keys_eq _ hsnd k v r (hsub _ (lookup_mem _ _ _ hlk)) hmemS
    obtain ⟨pre, post, hsplit, hpreK, herase⟩ := inFlight_lookup_split _ _ _ hlk
    have hcountEq : ∀ q, peerCount acc.inFlightBlockRequests q =
        peerCount (eraseInFlight acc.inFlightBlockRequests k) q +
          if v.peerAddress = q then 1 else 0 := by
      intro q
      rw [herase, hsplit, peerCount_append, peerCount_cons, peerCount_append]
      by_cases hpq : v.peerAddress = q
      · simp [hpq]
        omega
      · simp [hpq]
    refine ⟨⟨hwfPeers, hwfIF⟩, ?_, hsub'⟩
    intro pr hpr
    obtain ⟨hmem, hne⟩ := mem_erasePeer _ _ _ hwf.1 hpr
    have h1 := hinv pr hmem
    simp only [countInFlightFor] at h1
    have h2 := hcountEq pr.1
    have hvq : ¬(v.peerAddress = pr.1) := by
      rw [hvr]
      exact fun hc => hne hc.symm
    rw [if_neg hvq] at h2
    show pr.2.numBlocksInTransit = peerCount (eraseInFlight acc.inFlightBlockRequests k) pr.1
    omega

/-- The whole timeout sweep fold preserves well-formedness and the accounting
invariant. -/
theorem timeoutFold_preserves (s : NodeState)
    (hsnd : (s.inFlightBlockRequests.map Prod.fst).Nodup) :
    ∀ (exp : List (Bytes × InFlightBlockRequest)) (acc : NodeState),
      (∀ e ∈ exp, e ∈ s.inFlightBlockRequests) →
      (∀ x ∈ acc.inFlightBlockRequests, x ∈ s.inFlightBlockRequests) →
      NodeWF acc → TransitInv acc →
      NodeWF (exp.foldl (fun acc e =>
        closePeerConnection
          { acc with inFlightBlockRequests := eraseInFlight acc.inFlightBlockRequests e.1 }
          e.2.peerAddress) acc) ∧
      TransitInv (exp.foldl (fun acc e =>
        closePeerConnection
          { acc with inFlightBlockRequests := eraseInFlight acc.inFlightBlockRequests e.1 }
          e.2.peerAddress) acc) := by
  intro exp
  induction exp with
  | nil =>
    intro acc hexp hsub hwf hinv
    exact ⟨hwf, hinv⟩
  | cons e rest ih =>
    intro acc hexp hsub hwf hinv
    obtain ⟨hwf', hinv', hsub'⟩ :=
      timeoutStep_preserves s acc e.1 e.2 hsnd (hexp e (List.mem_cons_self _ _)) hsub hwf hinv
    exact ih _ (fun x hx => hexp x (List.mem_cons_of_mem _ hx)) hsub' hwf' hinv'

/-- The timeout sweep preserves well-formedness and the accounting invariant. -/
theorem timeout_preserves (s : NodeState) (t : Nat) (hwf : NodeWF s) (hinv : TransitInv s) :
    NodeWF (checkTimeoutsGetBlockData s t) ∧ TransitInv (checkTimeoutsGetBlockData s t) := by
  unfold checkTimeoutsGetBlockData
  exact timeoutFold_preserves s hwf.2 _ s
    (fun e he => (List.mem_filter.mp he).1) (fun x hx => hx) hwf hinv

/-- `cxNode` is well-formed: unique peer keys and unique in-flight keys. -/
theorem cxNode_wf : NodeWF cxNode := ⟨by decide, by decide⟩

/-- `cxNode` satisfies the accounting invariant: its one peer has two blocks
in transit and two in-flight requests. -/
theorem cxNode_inv : TransitInv cxNode := by
  intro pr hpr
  rcases List.mem_singleton.mp hpr with rfl
  decide

/-- C6 (amended): every block-download scheduling step, solicited
`Block`-message step, and block-request timeout step preserves the accounting
invariant — each tracked peer's `num_blocks_in_transit` equals the number of
in-flight requests assigned to it — together with map well-formedness; but
disconnecting a peer does not cancel its in-flight work:
`close_peer_connection` leaves the in-flight request map untouched, so a
disconnected peer's remaining requests linger until each times out. -/
theorem transitInv_step (s s' : NodeState) (hwf : NodeWF s) (hinv : TransitInv s)
    (hstep : NodeStep s s') :
    (NodeWF s' ∧ TransitInv s') ∧
    ∀ (u : NodeState) (q : String),
      (closePeerConnection u q).inFlightBlockRequests = u.inFlightBlockRequests := by
  refine ⟨?_, fun u q => rfl⟩
  cases hstep with
  | schedule peer t s2 h => exact maybeSend_preserves s peer t s' hwf hinv h
  | blockMsg peer b req s2 hlkIF hpeer h =>
    exact onBlock_preserves s peer b req s' hwf hinv hlkIF hpeer h
  | timeout t => exact timeout_preserves s t hwf hinv

/-- C6 counterexample: from the well-formed, invariant-satisfying state
`cxNode`, the timeout sweep at time 70000 disconnects `peer1` (whose first
request expired) yet leaves its second in-flight request in the map —
disconnection does not remove every in-flight block request assigned to the
peer. -/
theorem transit_disconnect_counterexample :
    NodeWF cxNode ∧ TransitInv cxNode ∧
    NodeStep cxNode (checkTimeoutsGetBlockData cxNode 70000) ∧
    (checkTimeoutsGetBlockData cxNode 70000).peerStates.lookup "peer1" = none ∧
    (checkTimeoutsGetBlockData cxNode 70000).inFlightBlockRequests.lookup (fkHash 7) =
      some ⟨"peer1", 50000⟩ := by
  refine ⟨cxNode_wf, cxNode_inv, NodeStep.timeout cxNode 70000,
    by decide, by decide⟩

/-- Witness for the amended C6 at the concrete state `cxNode` and its timeout
step. -/
theorem transitInv_step_witness :
    NodeWF cxNode ∧ TransitInv cxNode ∧
    ((NodeWF (checkTimeoutsGetBlockData cxNode 70000) ∧
      TransitInv (checkTimeoutsGetBlockData cxNode 70000)) ∧
     ∀ (u : NodeState) (q : String),
       (closePeerConnection u q).inFlightBlockRequests = u.inFlightBlockRequests) :=
  ⟨cxNode_wf, cxNode_inv,
    transitInv_step cxNode (checkTimeoutsGetBlockData cxNode 70000)
      cxNode_wf cxNode_inv (NodeStep.timeout cxNode 70000)⟩
